import Mathlib

/-!
Verification of the content-synchronization and publish pipeline of a
git-backed wiki server (package `gitutil`, `site` of dn42-wiki-go).

Strings are modelled as `List Char`.  Pure string algorithms
(`normalizeRelPath`, `isReservedPath`, `routeFromPath`, `htmlPathFrom`,
`encodeInt`, `encodePositions`, `processField`, ...) are translated
directly from the Go source.  Functions from the Go standard library
(`strings.TrimSpace`, `path.Clean`, `path.Ext`, `path.Join`, ...) are
modelled by Lean functions with the library's documented semantics.
Operations that shell out to the external `git` binary are modelled by
oracle environments recording the outcome of each invoked command, and
the repository/filesystem effects of those commands are modelled by
explicit state passing.
-/

set_option maxRecDepth 10000

abbrev Str := List Char

/-- Go `unicode.IsSpace`: the Unicode White_Space property. -/
def isSpaceGo (c : Char) : Bool :=
  let n := c.toNat
  (0x09 ≤ n && n ≤ 0x0D) || n = 0x20 || n = 0x85 || n = 0xA0 || n = 0x1680 ||
    (0x2000 ≤ n && n ≤ 0x200A) || n = 0x2028 || n = 0x2029 || n = 0x202F ||
    n = 0x205F || n = 0x3000

/-- Go `strings.TrimLeftFunc f` for a predicate. -/
def trimLeftP (p : Char → Bool) (s : Str) : Str := s.dropWhile p

/-- Go `strings.Trim`-style trimming of both ends by a predicate
(used for `strings.TrimSpace` and `strings.Trim(s, "/")`). -/
def trimBothP (p : Char → Bool) (s : Str) : Str :=
  ((s.dropWhile p).reverse.dropWhile p).reverse

/-- Go `strings.TrimSpace` (and the analogous JavaScript `String.trim`). -/
def trimSpaceGo (s : Str) : Str := trimBothP isSpaceGo s

/-- Go `strings.HasPrefix`. -/
def hasPre (pre s : Str) : Bool := pre.isPrefixOf s

/-- Go `strings.TrimPrefix`. -/
def trimPre (pre s : Str) : Str := if pre.isPrefixOf s then s.drop pre.length else s

/-- Go `strings.HasSuffix`. -/
def hasSuf (suf s : Str) : Bool := suf.isSuffixOf s

/-- Go `strings.TrimSuffix`. -/
def trimSuf (suf s : Str) : Str :=
  if suf.isSuffixOf s then s.take (s.length - suf.length) else s

/-- Go `strings.Contains(s, sub)`: `sub` occurs as a contiguous substring,
i.e. as a prefix of some tail. -/
def hasSub (s sub : Str) : Bool := s.tails.any (fun t => sub.isPrefixOf t)

/-- Go `unicode.ToLower` restricted to ASCII.  The Go function additionally
maps non-ASCII letters by the Unicode simple case mapping; no non-ASCII
letter maps into the ASCII characters that the wiki compares lowered
strings against (`.md`, the reserved route names, `/`), so the restriction
is observationally faithful for every comparison in the embedded code. -/
def toLowerGo (c : Char) : Char :=
  if 65 ≤ c.toNat ∧ c.toNat ≤ 90 then Char.ofNat (c.toNat + 32) else c

/-- Go `strings.ToLower` (ASCII fragment, see `toLowerGo`). -/
def mapLower (s : Str) : Str := s.map toLowerGo

/-- Go `strings.EqualFold` (ASCII simple folding, see `toLowerGo`). -/
def equalFoldGo (a b : Str) : Bool := mapLower a = mapLower b

/-- Go `strings.ReplaceAll(s, "\\", "/")` and `filepath.ToSlash`. -/
def backToSlash (s : Str) : Str := s.map (fun c => if c = '\\' then '/' else c)

/-- One step of Go `path.Clean`'s element processing: empty and `.` elements
are dropped, `..` pops a poppable element (or is kept at the front of a
relative path), everything else is appended.  This is the segmentwise
reading of the lazybuf loop in Go's `path.Clean`. -/
def cleanStep (rooted : Bool) (out : List Str) (seg : Str) : List Str :=
  if seg = [] ∨ seg = ['.'] then out
  else if seg = ['.', '.'] then
    (if out ≠ [] ∧ out.getLast? ≠ some ['.', '.'] then out.dropLast
     else if rooted then out else out ++ [['.', '.']])
  else out ++ [seg]

/-- Go `path.Clean` (segmentwise formulation of the lazybuf algorithm). -/
def pathClean (p : Str) : Str :=
  if p = [] then ['.']
  else
    let rooted := p.head? = some '/'
    let out := (p.splitOn '/').foldl (cleanStep rooted) []
    let s := (if rooted then ['/'] else []) ++ List.intercalate ['/'] out
    if s = [] then ['.'] else s

/-- Helper of `pathExt`: scan the reversed path for the final dot of the
final slash-separated element. -/
def extRevAux (acc : Str) : Str → Str
  | [] => []
  | c :: rest =>
    if c = '/' then []
    else if c = '.' then '.' :: acc
    else extRevAux (c :: acc) rest

/-- Go `path.Ext` / `filepath.Ext` (identical on slash paths): the suffix
beginning at the final dot in the final slash-separated element. -/
def pathExt (p : Str) : Str := extRevAux [] p.reverse

/-- Go `path.Join` on two elements: non-empty elements joined by a slash,
then cleaned; all-empty input gives the empty string. -/
def pathJoin2 (a b : Str) : Str :=
  if a = [] ∧ b = [] then []
  else if a = [] then pathClean b
  else if b = [] then pathClean a
  else pathClean (a ++ '/' :: b)

/-- The loop `for strings.HasPrefix(cleaned, "./") { cleaned = strings.TrimPrefix(cleaned, "./") }`. -/
def dropDotSlash : Str → Str
  | '.' :: '/' :: rest => dropDotSlash rest
  | s => s

/-! ### Search-index integer and position encodings (`site/search_index.go`)
and their decoders (client module `decodeInt` / `decodePositions`). -/

/-- The digit alphabet of `encodeInt`. -/
def b36Digits : Str := "0123456789abcdefghijklmnopqrstuvwxyz".toList

/-- The loop of `encodeInt`: `for value > 0`, prepend `digits[value%36]`
and divide by 36. -/
def encLoop : Nat → Str
  | 0 => []
  | v + 1 => encLoop ((v + 1) / 36) ++ [b36Digits.getD ((v + 1) % 36) ' ']
decreasing_by exact Nat.div_lt_self (Nat.succ_pos v) (by omega)

/-- Go `encodeInt` (`search_index.go`): base-36, most significant digit
first, `0` encoded as `"0"`; the loop body never runs for a negative
value, which therefore encodes to the empty string. -/
def encodeIntGo (v : Int) : Str :=
  if v = 0 then ['0']
  else if v < 0 then []
  else encLoop v.toNat

/-- The loop of `encodePositions` past the first entry: each entry is
separated by `.` and holds the gap from the previous position. -/
def encPosLoop (prev : Int) : List Int → Str
  | [] => []
  | p :: rest => '.' :: encodeIntGo (p - prev) ++ encPosLoop p rest

/-- Go `encodePositions` (`search_index.go`): first entry the absolute
position, each later entry the base-36 encoded gap from the previous
position, entries joined by `.`. -/
def encodePositionsGo : List Int → Str
  | [] => []
  | p :: rest => encodeIntGo p ++ encPosLoop p rest

/-- JavaScript client `decodeInt`: index of a character in the base-36
digit alphabet (`String.indexOf`, `none` for a non-digit). -/
def digitIdx (c : Char) : Option Nat := b36Digits.indexOf? c

/-- The accumulator loop of the client `decodeInt`: any non-digit
character makes the whole call return 0. -/
def decLoop (acc : Int) : Str → Int
  | [] => acc
  | c :: rest =>
    match digitIdx c with
    | none => 0
    | some i => decLoop (acc * 36 + i) rest

/-- JavaScript client `decodeInt`: trim, lower-case, empty decodes to 0,
then fold base-36 digits; any invalid character yields 0. -/
def decodeIntJs (s : Str) : Int :=
  let normalized := mapLower (trimSpaceGo s)
  if normalized = [] then 0 else decLoop 0 normalized

/-- The `forEach` loop of the client `decodePositions`: running total of
the decoded gaps, pushing each total. -/
def decPosLoop (total : Int) : List Str → List Int
  | [] => []
  | part :: rest =>
    let t := total + decodeIntJs part
    t :: decPosLoop t rest

/-- JavaScript client `decodePositions`: empty string decodes to the empty
list, otherwise split on `.` and prefix-sum the decoded gaps. -/
def decodePositionsJs (s : Str) : List Int :=
  if s = [] then [] else decPosLoop 0 (s.splitOn '.')

/-! ### Search-index tokenization (`processField` / `shouldIndexToken`). -/

/-- The byte length of a token, as Go `len(token)` on the UTF-8 string. -/
def utf8Len (t : Str) : Nat := (t.map Char.utf8Size).sum

/-- Go `shouldIndexToken` (`search_index.go`): the empty token is dropped;
a token of byte length 1 (necessarily one ASCII character, whose first
byte is that character) is kept only when that byte is a decimal digit;
every other token is kept. -/
def shouldIndexToken (t : Str) : Bool :=
  match t with
  | [] => false
  | c :: _ =>
    if utf8Len t = 1 then decide ('0'.toNat ≤ c.toNat ∧ c.toNat ≤ '9'.toNat)
    else true

/-- The Unicode facilities `processField` consumes: `norm.NFKD`,
`unicode.Is(unicode.Mn, ·)`, `unicode.IsLetter`, `unicode.IsDigit` and
`unicode.ToLower`.  They are external tables; the tokenizer is embedded
parametrically in them. -/
structure UTables where
  nfkd : Str → Str
  isMn : Char → Bool
  isLetter : Char → Bool
  isDigit : Char → Bool
  toLower : Char → Char

/-- The rune loop of `processField`: combining marks are skipped, letters
and digits are lower-cased into the builder, any other rune flushes the
builder, emitting the built token when `shouldIndexToken` accepts it; a
final flush happens after the loop.  Returns the emitted tokens in order
(the Go code applies a callback and counts; the count is the length of
this list). -/
def pfLoop (T : UTables) (builder : Str) : Str → List Str
  | [] => if builder ≠ [] then (if shouldIndexToken builder then [builder] else []) else []
  | r :: rest =>
    if T.isMn r then pfLoop T builder rest
    else if T.isLetter r || T.isDigit r then pfLoop T (builder ++ [T.toLower r]) rest
    else
      if builder ≠ [] then
        (if shouldIndexToken builder then [builder] else []) ++ pfLoop T [] rest
      else pfLoop T [] rest

/-- Go `processField` (`search_index.go`): empty text yields nothing,
otherwise NFKD-normalize and run the rune loop. -/
def processFieldGo (T : UTables) (text : Str) : List Str :=
  if text = [] then [] else pfLoop T [] (T.nfkd text)

/-- The Unicode tables restricted to the alphabet of the C8
counterexample: on the Greek small letter beta (U+03B2) and the ASCII
range, `norm.NFKD` is the identity (beta has no decomposition), beta is a
letter, not a combining mark, not a digit, and is its own lower case. -/
def betaTables : UTables where
  nfkd := id
  isMn := fun _ => false
  isLetter := fun c => c.isAlpha || c = 'β'
  isDigit := fun c => c.isDigit
  toLower := fun c => toLowerGo c

/-! ### Path normalization and routing (`site` path layer). -/

/-- The string `".md"`. -/
def mdSuf : Str := ".md".toList

/-- The string `"Home.md"`. -/
def homeMd : Str := "Home.md".toList

/-- Go `ensureHomeDoc` (`site` path layer): normalize the configured home
document path, defaulting to `Home.md`. -/
def ensureHomeDoc (homeDoc : Str) : Str :=
  let t0 := backToSlash (trimSpaceGo homeDoc)
  let t1 := if t0 = [] then homeMd else t0
  let t2 := if hasSuf mdSuf (mapLower t1) then t1 else t1 ++ mdSuf
  let c1 := trimPre ['/'] (dropDotSlash (pathClean t2))
  if c1 = [] then homeMd else backToSlash c1

/-- The error variants of `normalizeRelPath` (each is
`errors.Join(ErrInvalidPath, ...)` in Go). -/
inductive NormErr where
  | nullByte
  | escapesRoot
  | badSegment
  | dashSegment
deriving DecidableEq

/-- The segment loop of `normalizeRelPath`: empty, `.`, `..` and
NUL-containing segments are invalid; a segment may not start with `-`. -/
def checkSegs : List Str → Option NormErr
  | [] => none
  | seg :: rest =>
    if seg = [] ∨ seg = ['.'] ∨ seg = ['.', '.'] then some .badSegment
    else if hasPre ['-'] seg then some .dashSegment
    else if hasSub seg ['\x00'] then some .badSegment
    else checkSegs rest

/-- Go `normalizeRelPath(input, homeDoc)` (`site` path layer): trim, make
slashes forward, strip surrounding slashes, default to the home document,
reject NUL, force a `.md` suffix, `path.Clean`, strip `./` and a leading
slash, reject escapes from the repository root, validate the segments. -/
def normalizeRelPath (input homeDoc : Str) : Except NormErr Str :=
  let home := ensureHomeDoc homeDoc
  let c0 := trimBothP (fun c => c = '/') (backToSlash (trimSpaceGo input))
  let c1 := if c0 = [] then home else c0
  if hasSub c1 ['\x00'] then .error .nullByte
  else
    let c2 := if hasSuf mdSuf (mapLower c1) then c1 else c1 ++ mdSuf
    let d0 := trimPre ['/'] (dropDotSlash (pathClean c2))
    let d1 := if d0 = [] then home else d0
    if hasPre ['.', '.'] d1 || hasSub d1 "/../".toList then .error .escapesRoot
    else
      match checkSegs (d1.splitOn '/') with
      | some e => .error e
      | none => .ok (backToSlash d1)

/-- The `reservedRouteNames` set (`site` path layer). -/
def reservedRouteNames : List Str :=
  ["index", "_sidebar", "_footer", "404", "403", "_header", "layout", "readme",
   "search-index", "directory", "gollum", "root", "default", "assets", "api"].map
    String.toList

/-- Go `isReservedPath` (`site` path layer): lower-case, strip a leading
slash and a `.md` suffix; only a single-segment name can be reserved, and
it is reserved exactly when it is in `reservedRouteNames`. -/
def isReservedPath (rel : Str) : Bool :=
  let l0 := mapLower (backToSlash (trimSpaceGo rel))
  let l1 := trimPre ['/'] l0
  let l2 := trimSuf mdSuf l1
  if hasSub l2 ['/'] then false else decide (l2 ∈ reservedRouteNames)

/-- Go `routeFromPath(relPath, homeDoc)` (`site` path layer): the home
document maps to `/`; otherwise strip the extension and surrounding
slashes and wrap the result in slashes. -/
def routeFromPath (relPath homeDoc : Str) : Str :=
  let normalized := backToSlash (trimSpaceGo relPath)
  let home0 := backToSlash (trimSpaceGo homeDoc)
  let home := if home0 = [] then homeMd else home0
  if equalFoldGo normalized home then ['/']
  else
    let base := trimBothP (fun c => c = '/') (trimSuf (pathExt normalized) normalized)
    if base = [] then ['/'] else '/' :: base ++ ['/']

/-- Go `htmlPathFrom(relPath, homeDoc)` (`site` path layer): the home
document maps to `index.html`; otherwise the stripped base joined with
`index.html`. -/
def htmlPathFrom (relPath homeDoc : Str) : Str :=
  let normalized := backToSlash (trimSpaceGo relPath)
  let home0 := backToSlash (trimSpaceGo homeDoc)
  let home := if home0 = [] then homeMd else home0
  if equalFoldGo normalized home then "index.html".toList
  else
    let base := trimBothP (fun c => c = '/') (trimSuf (pathExt normalized) normalized)
    if base = [] then "index.html".toList
    else pathJoin2 base "index.html".toList

/-- Modelled from the spec: recovering the logical route from a generated
output path — `index.html` is the home route `/`, and any other output
path `base/index.html` is the route `/base/`. -/
def routeOfOutput (p : Str) : Str :=
  if p = "index.html".toList then ['/']
  else '/' :: trimSuf "/index.html".toList p ++ ['/']

/-- Modelled from the spec: the output path determined by a logical route —
the home route `/` maps to `index.html`, and any other route `/base/`
maps to `base/index.html`. -/
def outputOfRoute (r : Str) : Str :=
  if r = ['/'] then "index.html".toList
  else trimBothP (fun c => c = '/') r ++ "/index.html".toList

/-! ### VCS gateway (`gitutil/git.go`), modelled over command-outcome
oracles.  `CmdRes` is the outcome of one external command invocation:
`none` for success, `some out` for failure with combined output `out`.
Each operation also returns the list of git subcommands it invoked. -/

abbrev CmdRes := Option Str

/-- The typed git-layer errors: `remoteAhead` models an error joined with
the sentinel `ErrRemoteAhead` (what `errors.Is(err, ErrRemoteAhead)`
recognizes), `generic` every other wrapped command failure. -/
inductive GitErr where
  | remoteAhead (diag : Str)
  | generic (msg : Str)
deriving DecidableEq

/-- Go `needsRebaseFallback` (`git.go`): substring-match the pull
diagnostics for the fast-forward-impossible markers. -/
def needsRebaseFallback (output : Str) : Bool :=
  (["Not possible to fast-forward", "cannot fast-forward",
    "Diverging branches"].map String.toList).any (fun m => hasSub output m)

/-- Go `isNonFastForward` (`git.go`): lower-case the push diagnostics and
substring-match the non-fast-forward markers. -/
def isNonFastForward (output : Str) : Bool :=
  let lowered := mapLower output
  (["non-fast-forward", "fetch first", "Updates were rejected because",
    "failed to push some refs"].map String.toList).any
    (fun m => hasSub lowered (mapLower m))

/-- Go `Repository.Push` (`git.go`): with no remote configured return
immediately without running anything; otherwise run `git push`, and
classify a failure as `remoteAhead` exactly when `isNonFastForward`
matches its output. -/
def pushGo (remote : Str) (pushCmd : CmdRes) : Except GitErr Unit × List Str :=
  if trimSpaceGo remote = [] then (.ok (), [])
  else
    match pushCmd with
    | none => (.ok (), ["push".toList])
    | some out =>
      if isNonFastForward out then
        (.error (.remoteAhead (trimSpaceGo out)), ["push".toList])
      else (.error (.generic out), ["push".toList])

/-- Command-outcome oracle for one `Repository.Pull` call: the HEAD hash
read before, the `pull --ff-only` outcome, the `pull --rebase` outcome
(consulted only on a rebase fallback) and the HEAD hash read after. -/
structure PullEnv where
  remote : Str
  headBefore : Except GitErr Str
  pullCmd : CmdRes
  rebaseCmd : CmdRes
  headAfter : Except GitErr Str

/-- Go `Repository.Pull` (`git.go`): with no remote configured return
`(false, nil)` without running anything; otherwise record HEAD, run
`pull --ff-only`, fall back to `pull --rebase` on a fast-forward-blocked
diagnostic, and report whether the HEAD hash moved. -/
def pullGo (e : PullEnv) : Except GitErr Bool × List Str :=
  if trimSpaceGo e.remote = [] then (.ok false, [])
  else
    match e.headBefore with
    | .error pe => (.error pe, ["rev-parse".toList])
    | .ok prev =>
      match e.pullCmd with
      | none =>
        match e.headAfter with
        | .error ae => (.error ae, ["rev-parse".toList, "pull --ff-only".toList, "rev-parse".toList])
        | .ok a =>
          (.ok (decide (a ≠ prev)),
            ["rev-parse".toList, "pull --ff-only".toList, "rev-parse".toList])
      | some out =>
        if hasSub out "You have not concluded your merge".toList then
          (.error (.generic out), ["rev-parse".toList, "pull --ff-only".toList])
        else if needsRebaseFallback out then
          match e.rebaseCmd with
          | some rout =>
            (.error (.generic rout),
              ["rev-parse".toList, "pull --ff-only".toList, "pull --rebase".toList])
          | none =>
            match e.headAfter with
            | .error ae =>
              (.error ae,
                ["rev-parse".toList, "pull --ff-only".toList, "pull --rebase".toList,
                 "rev-parse".toList])
            | .ok a =>
              (.ok (decide (a ≠ prev)),
                ["rev-parse".toList, "pull --ff-only".toList, "pull --rebase".toList,
                 "rev-parse".toList])
        else (.error (.generic out), ["rev-parse".toList, "pull --ff-only".toList])

/-- The oracle for the second of two consecutive pulls between which no
new remote commits arrived: the first pull left HEAD at `h`, so
`pull --ff-only` succeeds (already up to date) and HEAD does not move. -/
def syncedPullEnv (r h : Str) : PullEnv :=
  { remote := r, headBefore := .ok h, pullCmd := none, rebaseCmd := none,
    headAfter := .ok h }

/-- Go `strconv` digit loop for `ParseInt`/`Atoi`. -/
def parseDigits (acc : Nat) : Str → Option Nat
  | [] => some acc
  | c :: rest =>
    if '0'.toNat ≤ c.toNat ∧ c.toNat ≤ '9'.toNat then
      parseDigits (acc * 10 + (c.toNat - '0'.toNat)) rest
    else none

/-- Go `strconv.ParseInt(s, 10, 64)` (also `Atoi`): optional sign, at
least one decimal digit, 64-bit signed range. -/
def parseIntGo (s : Str) : Option Int :=
  match s with
  | [] => none
  | '+' :: rest =>
    if rest = [] then none
    else (parseDigits 0 rest).bind
      (fun n => if n ≤ 2 ^ 63 - 1 then some (n : Int) else none)
  | '-' :: rest =>
    if rest = [] then none
    else (parseDigits 0 rest).bind
      (fun n => if n ≤ 2 ^ 63 then some (-(n : Int)) else none)
  | s =>
    (parseDigits 0 s).bind
      (fun n => if n ≤ 2 ^ 63 - 1 then some (n : Int) else none)

/-- Go `strings.Fields`: maximal runs of non-whitespace characters. -/
def fieldsGo (s : Str) : List Str := (s.splitOnP isSpaceGo).filter (fun f => f ≠ [])

/-- Command-outcome oracle for one `Repository.RemoteAhead` call. -/
structure AheadEnv where
  remote : Str
  fetchCmd : CmdRes
  revListOut : Str
  revListErr : Option Str

/-- Go `remoteAheadLocked` (`git.go`): parse
`rev-list --left-right --count HEAD...upstream`; a missing upstream is
"not ahead", a two-field count output reports whether the remote-side
count is positive. -/
def remoteAheadLockedGo (e : AheadEnv) : Except GitErr Bool :=
  let output0 := trimSpaceGo e.revListOut
  match e.revListErr with
  | some msg =>
    let output := if output0 = [] then msg else output0
    if hasSub output "no upstream configured".toList ||
        hasSub output "missing upstream".toList ||
        hasSub output "does not point to a branch".toList then .ok false
    else .error (.generic output)
  | none =>
    if output0 = [] then .ok false
    else
      let fields := fieldsGo output0
      if fields.length < 2 then .error (.generic output0)
      else
        match parseIntGo (fields.getD 1 []) with
        | none => .error (.generic output0)
        | some k => .ok (decide (k > 0))

/-- Go `Repository.RemoteAhead` (`git.go`): with no remote configured
return `(false, nil)` without running anything; otherwise fetch quietly
and compare HEAD with its upstream. -/
def remoteAheadGo (e : AheadEnv) : Except GitErr Bool × List Str :=
  if trimSpaceGo e.remote = [] then (.ok false, [])
  else
    match e.fetchCmd with
    | some out => (.error (.generic (trimSpaceGo out)), ["fetch".toList])
    | none => (remoteAheadLockedGo e, ["fetch".toList, "rev-list".toList])

/-- Go `gitutil.Commit` log metadata. -/
structure Commit where
  hash : Str
  author : Str
  email : Str
  message : Str
  committedAt : Int
deriving DecidableEq

/-- Models the output of `git log --skip=offset -n k --pretty=...` over a
path's commit history `hist` (one pre-formatted line per commit, newest
first): the requested window joined by newlines. -/
def gitLogCmdOut (hist : List Str) (offset k : Nat) : Str :=
  List.intercalate ['\n'] ((hist.drop offset).take k)

/-- The parsing loop of `Repository.Log`: split each line on NUL; lines
with other than five fields are skipped silently; an unparsable
timestamp aborts with an error. -/
def parseLogLines : List Str → Except GitErr (List Commit)
  | [] => .ok []
  | ln :: rest =>
    let parts := ln.splitOn '\x00'
    if parts.length = 5 then
      match parseIntGo (parts.getD 3 []) with
      | none => .error (.generic ln)
      | some secs =>
        match parseLogLines rest with
        | .error e => .error e
        | .ok cs =>
          .ok ({ hash := parts.getD 0 [], author := parts.getD 1 [],
                 email := parts.getD 2 [], message := parts.getD 4 [],
                 committedAt := secs } :: cs)
    else parseLogLines rest

/-- Go `Repository.Log` (`git.go`): request `pageSize+1` entries after
skipping `page*pageSize`, split the trimmed output into lines, report
`hasMore` when more than `pageSize` lines came back, truncate to
`pageSize` lines and parse them. -/
def logGo (hist : List Str) (page pageSize : Nat) : Except GitErr (List Commit × Bool) :=
  let out := gitLogCmdOut hist (page * pageSize) (pageSize + 1)
  let lines := (trimSpaceGo out).splitOn '\n'
  let hasMore := decide (lines.length > pageSize)
  let lines := if lines.length > pageSize then lines.take pageSize else lines
  match parseLogLines lines with
  | .error e => .error e
  | .ok cs => .ok (cs, hasMore)

/-! ### Repository state and the edit-transaction coordinator
(`site` save/rename layer, `finalizeCommit` / `rollbackWithConflict`). -/

/-- The modelled repository state: the stack of local commits (newest
first, as the reflog sees them) and the working tree, kept abstract. -/
structure RepoSt (α : Type) where
  commits : List Str
  worktree : α
deriving DecidableEq

/-- Go `Repository.ResetSoft` (`git.go`) plus the state effect of
`git reset --soft HEAD@{1}`: a blank target is rejected before running
anything; on success with target `HEAD@{1}` HEAD moves to the reflog's
previous position (dropping the newest commit) while the working tree is
untouched — that is the semantics of a soft reset. -/
def resetSoftGo {α : Type} (resetCmd : CmdRes) (target : Str) (st : RepoSt α) :
    Except GitErr Unit × RepoSt α :=
  if trimSpaceGo target = [] then (.error (.generic "reset target required".toList), st)
  else
    match resetCmd with
    | some out => (.error (.generic (trimSpaceGo out)), st)
    | none =>
      if target = "HEAD@{1}".toList then (.ok (), ⟨st.commits.tail, st.worktree⟩)
      else (.ok (), st)

/-- The service-level errors of the save/rename transaction. -/
inductive SvcErr where
  | repositoryBehind
  | rollbackFailed (e : GitErr)
  | git (e : GitErr)
  | editingDisabled
  | invalidPath (e : NormErr)
  | forbiddenRoute
  | reservedPath (rel : Str)
  | docStore (msg : Str)
  | commitMessageRequired
  | commitFailed (e : GitErr)
  | buildFailed (msg : Str)
deriving DecidableEq

/-- Command-outcome oracle for the publish step of one transaction. -/
structure FinEnv where
  aheadRes : Except GitErr Bool
  pushCmd : CmdRes
  resetCmd : CmdRes

/-- Go `rollbackWithConflict` (`site` save layer): soft-reset to
`HEAD@{1}`; a rollback failure is surfaced as a distinct error joined
with the conflict, otherwise the plain repository-behind conflict is
returned. -/
def rollbackWithConflict {α : Type} (resetCmd : CmdRes) (st : RepoSt α) :
    Except SvcErr Unit × RepoSt α :=
  match resetSoftGo resetCmd "HEAD@{1}".toList st with
  | (.error ge, st') => (.error (.rollbackFailed ge), st')
  | (.ok _, st') => (.error .repositoryBehind, st')

/-- Go `finalizeCommit` (`site` save layer): with no remote configured the
local commit is final; otherwise re-check remote divergence, roll back if
the remote advanced, push, and roll back when the push is rejected as
non-fast-forward. -/
def finalizeCommitGo {α : Type} (remote : Str) (e : FinEnv) (st : RepoSt α) :
    Except SvcErr Unit × RepoSt α :=
  if trimSpaceGo remote = [] then (.ok (), st)
  else
    match e.aheadRes with
    | .error ge => (.error (.git ge), st)
    | .ok true => rollbackWithConflict e.resetCmd st
    | .ok false =>
      match (pushGo remote e.pushCmd).1 with
      | .ok _ => (.ok (), st)
      | .error (.remoteAhead _) => rollbackWithConflict e.resetCmd st
      | .error (.generic m) => (.error (.git (.generic m)), st)

/-- The service configuration fields consulted by the save transaction. -/
structure SiteCfg where
  editable : Bool
  live : Bool
  homeDoc : Str
  commitMessagePre : Str
  commitMessageAppendRemoteAddr : Str
  author : Str
  remote : Str
  isPathPrivate : Str → Bool

/-- Replace the first occurrence of `pat` in `s` by `rep` (the effect of
Go `fmt.Sprintf(format, arg)` for the single `%s` verb the commit-message
template uses). -/
def replaceFirst (pat rep : Str) : Str → Str
  | [] => []
  | c :: rest =>
    if pat.isPrefixOf (c :: rest) ∧ pat ≠ [] then rep ++ (c :: rest).drop pat.length
    else c :: replaceFirst pat rep rest

/-- Go `commitRemoteSuffix` (`site` save layer). -/
def commitRemoteSuf (cfg : SiteCfg) (remote : Str) : Str :=
  let addition := cfg.commitMessageAppendRemoteAddr
  if trimSpaceGo addition = [] then []
  else
    let remote := trimSpaceGo remote
    if remote = [] then []
    else
      let addition :=
        if hasSub addition "%s".toList then replaceFirst "%s".toList remote addition
        else addition ++ remote
      if trimSpaceGo addition = [] then [] else addition

/-- Go `composeCommitMessage` (`site` save layer): a blank message is
rejected; the configured template adds a literal leading part and an
optional remote-address tail. -/
def composeCommitMessage (cfg : SiteCfg) (raw remote : Str) : Except SvcErr Str :=
  let message := trimSpaceGo raw
  if message = [] then .error .commitMessageRequired
  else
    let message :=
      if trimSpaceGo cfg.commitMessagePre ≠ [] then cfg.commitMessagePre ++ message
      else message
    let message := message ++ commitRemoteSuf cfg remote
    if message = [] then .error .commitMessageRequired else .ok message

/-- Go `routeIsPrivateFromRel` / `routeIsPrivate` (`site` privacy layer):
private routes only exist in live mode. -/
def routeIsPrivateFromRel (cfg : SiteCfg) (rel : Str) : Bool :=
  cfg.live && cfg.isPathPrivate (routeFromPath rel (ensureHomeDoc cfg.homeDoc))

/-- Go `ensureRouteAccessible` (`site` privacy layer). -/
def ensureRouteAccessible (cfg : SiteCfg) (rel : Str) : Option SvcErr :=
  if routeIsPrivateFromRel cfg rel then some SvcErr.forbiddenRoute else none

/-- Go `ensureRepositoryFresh` (`site` save layer): abort with the
repository-behind conflict when the remote has unpulled commits. -/
def ensureRepositoryFresh (freshAhead : Except GitErr Bool) : Option SvcErr :=
  match freshAhead with
  | .error e => some (.git e)
  | .ok true => some .repositoryBehind
  | .ok false => none

/-- Oracle environment for one `SavePage` transaction: the configuration,
the outcome of the freshness check, the document-store operations, the
commit, the rebuild and the publish step. -/
structure SaveEnv (α : Type) where
  cfg : SiteCfg
  freshAhead : Except GitErr Bool
  docExists : Str → Except Str Bool
  writeRes : Option Str
  writeEffect : α → α
  commitRes : Option GitErr
  newCommitHash : Str
  buildRes : Option Str
  fin : FinEnv

/-- Go `SavePage` (`site` save layer): editability check, freshness check,
path normalization, privacy check, reserved-name check (only for a path
with no existing document), write, commit-message composition, commit
(advancing HEAD by one commit), full rebuild, publish-or-rollback. -/
def savePageGo {α : Type} (env : SaveEnv α) (relPath _content message remoteAddr : Str)
    (st : RepoSt α) : Except SvcErr Unit × RepoSt α :=
  if ¬env.cfg.editable then (.error .editingDisabled, st)
  else
    match ensureRepositoryFresh env.freshAhead with
    | some e => (.error e, st)
    | none =>
      match normalizeRelPath relPath (ensureHomeDoc env.cfg.homeDoc) with
      | .error ne => (.error (.invalidPath ne), st)
      | .ok rel =>
        match ensureRouteAccessible env.cfg rel with
        | some e => (.error e, st)
        | none =>
          match env.docExists rel with
          | .error msg => (.error (.docStore msg), st)
          | .ok ex =>
            if ¬ex ∧ isReservedPath rel then (.error (.reservedPath rel), st)
            else
              match env.writeRes with
              | some msg => (.error (.docStore msg), st)
              | none =>
                let st := RepoSt.mk st.commits (env.writeEffect st.worktree)
                match composeCommitMessage env.cfg message remoteAddr with
                | .error e => (.error e, st)
                | .ok _ =>
                  match env.commitRes with
                  | some ge => (.error (.commitFailed ge), st)
                  | none =>
                    let st := RepoSt.mk (env.newCommitHash :: st.commits) st.worktree
                    match env.buildRes with
                    | some msg => (.error (.buildFailed msg), st)
                    | none => finalizeCommitGo env.cfg.remote env.fin st

/-- The error of `Service.Pull` (`site/service.go`): either the git error
or the wrapped build error. -/
inductive SvcPullErr where
  | git (e : GitErr)
  | build (msg : Str)
deriving DecidableEq

/-- Go `Service.Pull` (`site/service.go`): pull, and rebuild only when the
pull reports that HEAD moved; the returned flag records whether the
rebuild ran. -/
def servicePullGo (pullRes : Except GitErr Bool) (buildRes : Option Str) :
    Except SvcPullErr Unit × Bool :=
  match pullRes with
  | .error e => (.error (.git e), false)
  | .ok false => (.ok (), false)
  | .ok true =>
    match buildRes with
    | some msg => (.error (.build msg), true)
    | none => (.ok (), true)

/-! ### The build pipeline (`Service.BuildStatic`, `site/service.go`),
modelled over an abstract filesystem of top-level directories.  Every
write of steps 1-9 targets a path under the scratch directory, so the
filesystem is tracked at directory granularity: a map from directory
name to its (abstract) content. -/

/-- The three filesystem locations the promotion step of `BuildStatic`
touches, at directory granularity: the published output directory
(`s.cfg.OutputDir`), its rotated backup (the `.old` name) and the scratch
build directory (freshly created by `os.MkdirTemp` next to the output
directory; the three path names are pairwise distinct).  The contents are
abstract. -/
structure FS3 (α : Type) where
  published : Option α
  backup : Option α
  scratch : Option α
deriving DecidableEq

/-- Filesystem-level failure of a rename. -/
inductive FsErr where
  | notExist
  | osFail
deriving DecidableEq

/-- One error per aborting step of `BuildStatic`. -/
inductive BuildErr where
  | mkdirTemp
  | layout
  | list
  | noTrackedFiles
  | render
  | copyAsset
  | writeDocs
  | writeDirectory
  | writeNotFound
  | writeForbidden
  | searchIndex
  | writeIndex
  | copyAssetsTree
  | homeAlias
  | ensureParent
  | cleanBackup
  | rotate
  | activate
deriving DecidableEq

/-- Step-outcome oracle for one `BuildStatic` run. -/
structure BuildEnv where
  mkdirTempFail : Bool
  layoutFail : Bool
  listFail : Bool
  files : List Str
  renderFail : Bool
  copyAssetFail : Bool
  writeDocsFail : Bool
  writeDirFail : Bool
  write404Fail : Bool
  write403Fail : Bool
  indexFail : Bool
  writeIndexFail : Bool
  staticDir : Bool
  copyTreeFail : Bool
  homeAliasFail : Bool
  mkdirParentFail : Bool
  cleanBackupFail : Bool
  rotateFail : Bool
  activateFail : Bool

/-- The deferred cleanup of `BuildStatic`: every abort before the
promotion succeeded removes the scratch directory (`os.RemoveAll`). -/
def buildAbort {α : Type} (err : BuildErr) (fs : FS3 α) : Except BuildErr Unit × FS3 α :=
  (.error err, { fs with scratch := none })

/-- The promotion tail of `BuildStatic`: `os.Rename` the scratch directory
into the published location; on failure `os.Rename` the rotated backup
back (best-effort, its error ignored) and abort through the deferred
cleanup; on success `os.RemoveAll` the backup (error ignored) and keep
the scratch directory where it was moved. -/
def activateStep {α : Type} (e : BuildEnv) (fs : FS3 α) : Except BuildErr Unit × FS3 α :=
  let act : Except FsErr (FS3 α) :=
    if e.activateFail then .error .osFail
    else
      match fs.scratch with
      | none => .error .notExist
      | some v => .ok { fs with scratch := none, published := some v }
  match act with
  | .error _ =>
    let fs' := match fs.backup with
               | none => fs
               | some v => { fs with backup := none, published := some v }
    (.error .activate, { fs' with scratch := none })
  | .ok f => (.ok (), { f with backup := none })

/-- The abort condition of steps 1-4 of `BuildStatic` (layout refresh,
tracked-file listing — an empty tree is a descriptive error —, document
rendering, asset copies), in source order. -/
def preflight (e : BuildEnv) : Option BuildErr :=
  if e.layoutFail then some .layout
  else if e.listFail then some .list
  else if e.files = [] then some .noTrackedFiles
  else if e.renderFail then some .render
  else if e.copyAssetFail then some .copyAsset
  else none

/-- The abort condition of steps 5-9 of `BuildStatic` (page writes,
directory/404/403 pages, search index build and write, theme assets,
home alias, output-parent creation, stale-backup removal), in source
order. -/
def writesErr (e : BuildEnv) : Option BuildErr :=
  if e.writeDocsFail then some .writeDocs
  else if e.writeDirFail then some .writeDirectory
  else if e.write404Fail then some .writeNotFound
  else if e.write403Fail then some .writeForbidden
  else if e.indexFail then some .searchIndex
  else if e.writeIndexFail then some .writeIndex
  else if e.staticDir ∧ e.copyTreeFail then some .copyAssetsTree
  else if e.homeAliasFail then some .homeAlias
  else if e.mkdirParentFail then some .ensureParent
  else if e.cleanBackupFail then some .cleanBackup
  else none

/-- Go `Service.BuildStatic` (`site/service.go`): create a scratch
directory, build the whole output tree into it (every write of steps 1-9
targets a path joined under the scratch directory; any step failure
aborts through the deferred scratch cleanup), then promote: remove a
stale backup, rotate the published directory to the `.old` name
(tolerating `os.IsNotExist`), rename the scratch directory into place
and drop the backup.  `fresh` and `built` are the abstract contents of
the scratch directory when created and after the build steps wrote into
it. -/
def buildStaticGo {α : Type} (e : BuildEnv) (fresh built : α) (fs : FS3 α) :
    Except BuildErr Unit × FS3 α :=
  if e.mkdirTempFail then (.error .mkdirTemp, fs)
  else
    let fs1 : FS3 α := { fs with scratch := some fresh }
    match preflight e with
    | some err => buildAbort err fs1
    | none =>
      let fs2 : FS3 α := { fs1 with scratch := some built }
      match writesErr e with
      | some err => buildAbort err fs2
      | none =>
        let fs3 : FS3 α := { fs2 with backup := none }
        if e.rotateFail then buildAbort .rotate fs3
        else
          match fs3.published with
          | none => activateStep e fs3
          | some v => activateStep e { fs3 with published := none, backup := some v }

/-- A well-formed pretty-formatted log line: nonempty, no embedded
newline, and no whitespace at either end (a `%H...%s` line starts with a
hex hash and ends with the subject). -/
def cleanLogLine (l : Str) : Bool :=
  decide (l ≠ []) && decide ('\n' ∉ l) && !isSpaceGo (l.headD ' ') &&
    !isSpaceGo (l.getLastD ' ')

/-- A path segment that `path.Clean` passes through unchanged: nonempty
and neither `.` nor `..`. -/
def goodPiece (s : Str) : Bool := decide (s ≠ [] ∧ s ≠ ['.'] ∧ s ≠ ['.', '.'])

/-- The normalized form `filepath.ToSlash(strings.TrimSpace(relPath))`
shared by `routeFromPath` and `htmlPathFrom`. -/
def docNorm (relPath : Str) : Str := backToSlash (trimSpaceGo relPath)

/-- The normalized home-document path of `routeFromPath` and
`htmlPathFrom` (defaulting to `Home.md`). -/
def homeNorm (homeDoc : Str) : Str :=
  if backToSlash (trimSpaceGo homeDoc) = [] then homeMd
  else backToSlash (trimSpaceGo homeDoc)

/-- The extension-stripped, slash-trimmed base both `routeFromPath` and
`htmlPathFrom` derive from a document path. -/
def docBase (relPath : Str) : Str :=
  trimBothP (fun c => c = '/') (trimSuf (pathExt (docNorm relPath)) (docNorm relPath))

/-- The shape `normalizeRelPath` forces before cleaning: the last three
characters lower-case to `.md` (so the path keeps a case-insensitive `.md`
suffix through every later stage). -/
def lowMd (x : Str) : Prop :=
  ∃ y a b c, x = y ++ [a, b, c] ∧
    toLowerGo a = '.' ∧ toLowerGo b = 'm' ∧ toLowerGo c = 'd'

/-! ## Theorems -/

/-- C10: with a blank (empty or whitespace-only) configured remote, `Pull`
returns `(changed=false, nil)`, `Push` returns `nil`, and `RemoteAhead`
returns `(false, nil)`, each without invoking any git command. -/
theorem noRemote_noop (remote : Str) (e : PullEnv) (a : AheadEnv) (pc : CmdRes)
    (hr : trimSpaceGo remote = []) (he : e.remote = remote) (ha : a.remote = remote) :
    pullGo e = (.ok false, []) ∧ pushGo remote pc = (.ok (), []) ∧
      remoteAheadGo a = (.ok false, []) := by
  refine ⟨?_, ?_, ?_⟩
  · simp [pullGo, he, hr]
  · simp [pushGo, hr]
  · simp [remoteAheadGo, ha, hr]

/-- Witness for C10 at the whitespace-only remote `" "`. -/
theorem noRemote_noop_witness :
    pullGo { remote := " ".toList, headBefore := .ok [], pullCmd := none,
             rebaseCmd := none, headAfter := .ok [] } = (.ok false, []) ∧
      pushGo " ".toList none = (.ok (), []) ∧
      remoteAheadGo { remote := " ".toList, fetchCmd := none, revListOut := [],
                      revListErr := none } = (.ok false, []) :=
  noRemote_noop " ".toList _ _ none (by decide) rfl rfl

/-- C1: in a save/rename transaction that reaches the publish step with a
remote configured, if the re-checked divergence reports the remote
advanced, or the push fails with a non-fast-forward diagnostic, the
coordinator soft-resets to the pre-transaction commit — dropping exactly
the transaction's commit while leaving the working tree untouched — and
returns the plain repository-behind error; if the soft reset itself
fails, the returned error is the distinct rollback-failure error carrying
the reset diagnostic. -/
theorem finalize_rollback {α : Type} (remote : Str) (e : FinEnv) (st : RepoSt α)
    (c pre : Str) (rest : List Str)
    (hrem : trimSpaceGo remote ≠ [])
    (hst : st.commits = c :: pre :: rest)
    (hbehind : e.aheadRes = .ok true ∨
      (e.aheadRes = .ok false ∧
        ∃ out, e.pushCmd = some out ∧ isNonFastForward out = true)) :
    (e.resetCmd = none →
      finalizeCommitGo remote e st =
        (.error .repositoryBehind, ⟨pre :: rest, st.worktree⟩)) ∧
    (∀ out, e.resetCmd = some out →
      finalizeCommitGo remote e st =
        (.error (.rollbackFailed (.generic (trimSpaceGo out))), st) ∧
      (∀ ge, SvcErr.rollbackFailed ge ≠ SvcErr.repositoryBehind)) := by
  have htgt : ¬(trimSpaceGo "HEAD@{1}".toList = []) := by decide
  have hrollN : rollbackWithConflict none st =
      (.error .repositoryBehind, ⟨st.commits.tail, st.worktree⟩) := by
    simp only [rollbackWithConflict, resetSoftGo, if_neg htgt]
    simp
  have hrollS : ∀ out, rollbackWithConflict (some out) st =
      (.error (.rollbackFailed (.generic (trimSpaceGo out))), st) := by
    intro out
    simp only [rollbackWithConflict, resetSoftGo, if_neg htgt]
  have hfin : finalizeCommitGo remote e st = rollbackWithConflict e.resetCmd st := by
    rcases hbehind with ha | ⟨ha, out, hout, hnff⟩
    · simp [finalizeCommitGo, hrem, ha]
    · simp [finalizeCommitGo, hrem, ha, pushGo, hout, hnff]
  constructor
  · intro hrc
    rw [hfin, hrc, hrollN, hst]
    rfl
  · intro out hrc
    exact ⟨by rw [hfin, hrc, hrollS], fun ge h => by cases h⟩

/-- Witness for C1: a transaction whose push is rejected with a
non-fast-forward diagnostic, with a succeeding soft reset. -/
theorem finalize_rollback_witness :
    finalizeCommitGo "origin".toList
        { aheadRes := .ok false, pushCmd := some "! [rejected] non-fast-forward".toList,
          resetCmd := none }
        (RepoSt.mk ["c2".toList, "c1".toList, "c0".toList] (0 : Nat)) =
      (.error .repositoryBehind, ⟨["c1".toList, "c0".toList], 0⟩) :=
  (finalize_rollback "origin".toList _ _ "c2".toList "c1".toList ["c0".toList]
      (by decide) rfl
      (Or.inr ⟨rfl, "! [rejected] non-fast-forward".toList, rfl, by decide⟩)).1 rfl

/-- C4: with a remote configured, whenever `Pull` returns without error it
reports `changed=true` exactly when the HEAD hash read after the pull
differs from the HEAD hash recorded before it (on both the
fast-forward-only path and the rebase-fallback path); and the second of
two consecutive pulls with no new remote commits in between reports
`changed=false`, whereupon `Service.Pull` skips the rebuild. -/
theorem pull_changed_iff :
    (∀ (e : PullEnv) (prev after : Str) (b : Bool) (tr : List Str),
      trimSpaceGo e.remote ≠ [] → e.headBefore = .ok prev → e.headAfter = .ok after →
      pullGo e = (.ok b, tr) → b = decide (after ≠ prev)) ∧
    (∀ (r h : Str) (buildRes : Option Str), trimSpaceGo r ≠ [] →
      (pullGo (syncedPullEnv r h)).1 = .ok false ∧
      servicePullGo (pullGo (syncedPullEnv r h)).1 buildRes = (.ok (), false)) := by
  constructor
  · intro e prev after b tr hrem hb ha hres
    obtain ⟨rem, hbf, pc, rc, haf⟩ := e
    simp only at hrem hb ha hres
    subst hb
    subst ha
    rcases pc with _ | out
    · simp only [pullGo, if_neg hrem] at hres
      simp only [Prod.mk.injEq, Except.ok.injEq] at hres
      exact hres.1.symm
    · simp only [pullGo, if_neg hrem] at hres
      split at hres
      · simp at hres
      · split at hres
        · rcases rc with _ | rout
          · simp only [Prod.mk.injEq, Except.ok.injEq] at hres
            exact hres.1.symm
          · simp at hres
        · simp at hres
  · intro r h buildRes hrem
    have hp : (pullGo (syncedPullEnv r h)).1 = .ok false := by
      simp [pullGo, syncedPullEnv, if_neg hrem]
    exact ⟨hp, by rw [hp]; rfl⟩

/-- Witness for C4: a remote-configured pull whose fast-forward succeeds
and moves HEAD from `a` to `b`, and a synced repository's no-op pull. -/
theorem pull_changed_iff_witness :
    (true : Bool) = decide ("b".toList ≠ "a".toList) ∧
    (pullGo (syncedPullEnv "origin".toList "a".toList)).1 = .ok false ∧
    servicePullGo (pullGo (syncedPullEnv "origin".toList "a".toList)).1 none =
      (.ok (), false) := by
  refine ⟨?_, ?_, ?_⟩
  · exact pull_changed_iff.1
      { remote := "origin".toList, headBefore := .ok "a".toList, pullCmd := none,
        rebaseCmd := none, headAfter := .ok "b".toList }
      "a".toList "b".toList true
      ["rev-parse".toList, "pull --ff-only".toList, "rev-parse".toList]
      (by decide) rfl rfl (by rfl)
  · exact (pull_changed_iff.2 "origin".toList "a".toList none (by decide)).1
  · exact (pull_changed_iff.2 "origin".toList "a".toList none (by decide)).2

/-- `composeCommitMessage` only ever fails with the blank-message error. -/
theorem composeCommitMessage_err (cfg : SiteCfg) (raw remote : Str) (e : SvcErr)
    (h : composeCommitMessage cfg raw remote = .error e) : e = .commitMessageRequired := by
  rw [composeCommitMessage] at h
  repeat' split at h
  all_goals simp_all

/-- `rollbackWithConflict` only ever returns the repository-behind or
rollback-failed errors. -/
theorem rollback_no_reserved {α : Type} (rc : CmdRes) (st : RepoSt α) (p : Str)
    (st' : RepoSt α) : rollbackWithConflict rc st ≠ (.error (.reservedPath p), st') := by
  intro h
  rw [rollbackWithConflict] at h
  split at h <;> simp_all

/-- `finalizeCommitGo` never returns a reserved-path error. -/
theorem finalize_no_reserved {α : Type} (remote : Str) (fin : FinEnv) (st : RepoSt α)
    (p : Str) (st' : RepoSt α) :
    finalizeCommitGo remote fin st ≠ (.error (.reservedPath p), st') := by
  intro h
  rw [finalizeCommitGo] at h
  split at h
  · simp at h
  · split at h
    · simp at h
    · exact rollback_no_reserved _ _ _ _ h
    · split at h
      · simp at h
      · exact rollback_no_reserved _ _ _ _ h
      · simp at h

/-- C5: in a save transaction whose preceding steps succeed, a normalized
path that `isReservedPath` accepts is rejected with the reserved-path
error exactly when no document currently exists there; when a document
already occupies the path, the transaction proceeds past the
reserved-name check and is never rejected with a reserved-path error. -/
theorem savePage_reserved {α : Type} (env : SaveEnv α)
    (relPath content message remoteAddr : Str) (st : RepoSt α) (rel : Str) (ex : Bool)
    (hed : env.cfg.editable = true)
    (hfresh : env.freshAhead = .ok false)
    (hnorm : normalizeRelPath relPath (ensureHomeDoc env.cfg.homeDoc) = .ok rel)
    (hacc : routeIsPrivateFromRel env.cfg rel = false)
    (hex : env.docExists rel = .ok ex)
    (hres : isReservedPath rel = true) :
    (ex = false →
      savePageGo env relPath content message remoteAddr st = (.error (.reservedPath rel), st)) ∧
    (ex = true → ∀ p st',
      savePageGo env relPath content message remoteAddr st ≠ (.error (.reservedPath p), st')) := by
  have hhead : savePageGo env relPath content message remoteAddr st =
      (if ¬ex ∧ isReservedPath rel then (.error (.reservedPath rel), st)
       else
        match env.writeRes with
        | some msg => (.error (.docStore msg), st)
        | none =>
          let st1 := RepoSt.mk st.commits (env.writeEffect st.worktree)
          match composeCommitMessage env.cfg message remoteAddr with
          | .error e => (.error e, st1)
          | .ok _ =>
            match env.commitRes with
            | some ge => (.error (.commitFailed ge), st1)
            | none =>
              let st2 := RepoSt.mk (env.newCommitHash :: st1.commits) st1.worktree
              match env.buildRes with
              | some msg => (.error (.buildFailed msg), st2)
              | none => finalizeCommitGo env.cfg.remote env.fin st2) := by
    rw [savePageGo, if_neg (by simp [hed]), hfresh]
    show (match normalizeRelPath relPath (ensureHomeDoc env.cfg.homeDoc) with
          | .error ne => _ | .ok rel => _) = _
    rw [hnorm]
    show (match ensureRouteAccessible env.cfg rel with | some e => _ | none => _) = _
    rw [ensureRouteAccessible, if_neg (by simp [hacc])]
    show (match env.docExists rel with | .error msg => _ | .ok ex => _) = _
    rw [hex]
  constructor
  · intro hx
    subst hx
    rw [hhead, if_pos (by simp [hres])]
  · intro hx p st'
    subst hx
    rw [hhead, if_neg (by simp)]
    cases hw : env.writeRes with
    | some msg => simp
    | none =>
      cases hm : composeCommitMessage env.cfg message remoteAddr with
      | error e =>
        have he := composeCommitMessage_err _ _ _ _ hm
        subst he
        simp
      | ok m =>
        cases hc : env.commitRes with
        | some ge => simp
        | none =>
          cases hb : env.buildRes with
          | some msg => simp
          | none => exact finalize_no_reserved _ _ _ _ _

/-- Witness for C5: saving to the reserved name `directory` with no such
document present is rejected with the reserved-path error. -/
theorem savePage_reserved_witness :
    savePageGo
      { cfg := { editable := true, live := false, homeDoc := "Home.md".toList,
                 commitMessagePre := [], commitMessageAppendRemoteAddr := [],
                 author := [], remote := [], isPathPrivate := fun _ => false },
        freshAhead := .ok false, docExists := fun _ => .ok false,
        writeRes := none, writeEffect := id, commitRes := none,
        newCommitHash := "c1".toList, buildRes := none,
        fin := { aheadRes := .ok false, pushCmd := none, resetCmd := none } }
      "directory".toList "x".toList "msg".toList [] (RepoSt.mk [] (0 : Nat)) =
      (.error (.reservedPath "directory.md".toList), RepoSt.mk [] 0) := by
  refine (savePage_reserved ?_ "directory".toList "x".toList "msg".toList []
      (RepoSt.mk [] (0 : Nat)) "directory.md".toList false ?_ ?_ ?_ ?_ ?_ ?_).1 rfl
  · rfl
  · rfl
  · rfl
  · rfl
  · rfl
  · decide

/-- Pieces produced by `splitOnP` contain no separator element. -/
theorem splitOnP_pieces {α : Type} (p : α → Bool) (xs : List α) :
    ∀ l ∈ xs.splitOnP p, ∀ c ∈ l, p c = false := by
  induction xs with
  | nil =>
    intro l hl c hc
    simp only [List.splitOnP_nil, List.mem_singleton] at hl
    subst hl
    simp at hc
  | cons a as ih =>
    intro l hl c hc
    rw [List.splitOnP_cons] at hl
    by_cases hpa : p a
    · rw [if_pos hpa] at hl
      rcases List.mem_cons.mp hl with h | h
      · subst h
        simp at hc
      · exact ih l h c hc
    · rw [if_neg hpa] at hl
      obtain ⟨h1, t1, hsplit⟩ : ∃ h1 t1, as.splitOnP p = h1 :: t1 := by
        cases hsp : as.splitOnP p with
        | nil => exact absurd hsp (List.splitOnP_ne_nil p as)
        | cons h1 t1 => exact ⟨h1, t1, rfl⟩
      rw [hsplit] at hl
      rcases List.mem_cons.mp hl with h | h
      · subst h
        rcases List.mem_cons.mp hc with h | h
        · subst h
          exact Bool.eq_false_iff.mpr hpa
        · exact ih h1 (hsplit ▸ List.mem_cons_self h1 t1) c h
      · exact ih l (hsplit ▸ List.mem_cons_of_mem h1 h) c hc

/-- Pieces produced by `splitOn` do not contain the separator. -/
theorem splitOn_pieces {α : Type} [DecidableEq α] (x : α) (xs : List α) :
    ∀ l ∈ xs.splitOn x, x ∉ l := by
  intro l hl hx
  have := splitOnP_pieces (fun c => c == x) xs l hl x hx
  simp at this

/-- Trimming is the identity on a list whose two boundary elements do not
satisfy the predicate. -/
theorem trimBothP_eq_self (p : Char → Bool) (s : Str)
    (h1 : ∀ c, s.head? = some c → p c = false)
    (h2 : ∀ c, s.getLast? = some c → p c = false) : trimBothP p s = s := by
  have hdw : ∀ (t : Str), (∀ c, t.head? = some c → p c = false) → t.dropWhile p = t := by
    intro t ht
    cases t with
    | nil => rfl
    | cons a t' =>
      rw [List.dropWhile_cons, if_neg]
      simp [ht a rfl]
  rw [trimBothP, hdw s h1, hdw, List.reverse_reverse]
  intro c hc
  rw [List.head?_reverse] at hc
  exact h2 c hc

/-- `intercalate` on a single piece. -/
theorem intercalate_one {α : Type} (s : List α) (a : List α) :
    List.intercalate s [a] = a := by
  simp [List.intercalate]

/-- `intercalate` on at least two pieces. -/
theorem intercalate_two {α : Type} (s a b : List α) (t : List (List α)) :
    List.intercalate s (a :: b :: t) = a ++ s ++ List.intercalate s (b :: t) := by
  simp [List.intercalate]

/-- The head of an `intercalate` is the head of its first (nonempty) piece. -/
theorem head?_intercalate {α : Type} (s : List α) (a : List α) (t : List (List α))
    (ha : a ≠ []) : (List.intercalate s (a :: t)).head? = a.head? := by
  cases t with
  | nil => rw [intercalate_one]
  | cons b t' =>
    rw [intercalate_two]
    cases a with
    | nil => exact absurd rfl ha
    | cons x xs => rfl

/-- An `intercalate` of nonempty pieces is nonempty. -/
theorem intercalate_ne_nil {α : Type} (s : List α) (a : List α) (t : List (List α))
    (ha : a ≠ []) : List.intercalate s (a :: t) ≠ [] := by
  intro h
  have := head?_intercalate s a t ha
  rw [h] at this
  cases a with
  | nil => exact ha rfl
  | cons x xs => simp at this

/-- The last element of an `intercalate` of nonempty pieces is the last
element of its last piece. -/
theorem getLast?_intercalate {α : Type} (s : List α) :
    ∀ (t : List (List α)) (a : List α), (∀ l ∈ a :: t, l ≠ []) →
      (List.intercalate s (a :: t)).getLast? =
        ((a :: t).getLast (List.cons_ne_nil a t)).getLast? := by
  intro t
  induction t with
  | nil =>
    intro a _
    rw [intercalate_one]
    rfl
  | cons b t' ih =>
    intro a h
    rw [intercalate_two, List.append_assoc]
    have hne : List.intercalate s (b :: t') ≠ [] :=
      intercalate_ne_nil s b t' (h b (by simp))
    rw [List.getLast?_append_of_ne_nil _ (by simp [hne])]
    rw [List.getLast?_append_of_ne_nil _ hne]
    rw [ih b (fun l hl => h l (List.mem_cons_of_mem a hl))]
    rw [List.getLast_cons (List.cons_ne_nil b t')]

/-- When every five-field line has a parsable timestamp, `parseLogLines`
succeeds and produces exactly one commit per five-field line, silently
skipping the others. -/
theorem parseLogLines_ok (L : List Str)
    (h : ∀ l ∈ L, (l.splitOn '\x00').length = 5 →
      parseIntGo ((l.splitOn '\x00').getD 3 []) ≠ none) :
    ∃ cs, parseLogLines L = .ok cs ∧
      cs.length = (L.filter (fun l => decide ((l.splitOn '\x00').length = 5))).length := by
  induction L with
  | nil => exact ⟨[], rfl, rfl⟩
  | cons ln rest ih =>
    obtain ⟨cs, hcs, hlen⟩ := ih (fun l hl => h l (List.mem_cons_of_mem ln hl))
    by_cases h5 : (ln.splitOn '\x00').length = 5
    · have hp := h ln (List.mem_cons_self ln rest) h5
      cases hsec : parseIntGo ((ln.splitOn '\x00').getD 3 []) with
      | none => exact absurd hsec hp
      | some secs =>
        refine ⟨{ hash := (ln.splitOn '\x00').getD 0 [],
                  author := (ln.splitOn '\x00').getD 1 [],
                  email := (ln.splitOn '\x00').getD 2 [],
                  message := (ln.splitOn '\x00').getD 4 [],
                  committedAt := secs } :: cs, ?_, ?_⟩
        · simp only [parseLogLines]
          rw [if_pos h5, hsec, hcs]
        · simp [List.filter_cons, h5, hlen]
    · refine ⟨cs, ?_, ?_⟩
      · rw [parseLogLines, if_neg h5]
        exact hcs
      · simp [List.filter_cons, h5, hlen]

/-- C9: `Log` requests `pageSize+1` entries after skipping
`page*pageSize` (the window `(hist.drop (page*pageSize)).take (pageSize+1)`
of the path's history), returns at most `pageSize` commits, reports
`hasMore` exactly when the history holds strictly more than `pageSize`
entries beyond the skipped offset, and silently skips lines that do not
have exactly five NUL-separated fields instead of failing. -/
theorem log_pagination (hist : List Str) (page pageSize : Nat) (hps : 1 ≤ pageSize)
    (hlines : ∀ l ∈ hist, cleanLogLine l = true)
    (hts : ∀ l ∈ (hist.drop (page * pageSize)).take pageSize,
      (l.splitOn '\x00').length = 5 →
        parseIntGo ((l.splitOn '\x00').getD 3 []) ≠ none) :
    ∃ cs, logGo hist page pageSize =
        .ok (cs, decide (hist.length > page * pageSize + pageSize)) ∧
      cs.length ≤ pageSize ∧
      parseLogLines ((hist.drop (page * pageSize)).take pageSize) = .ok cs ∧
      cs.length = (((hist.drop (page * pageSize)).take pageSize).filter
        (fun l => decide ((l.splitOn '\x00').length = 5))).length := by
  have hsliceprop : ∀ l ∈ (hist.drop (page * pageSize)).take (pageSize + 1),
      cleanLogLine l = true := by
    intro l hl
    exact hlines l (List.mem_of_mem_drop (List.mem_of_mem_take hl))
  have htrunc : ((hist.drop (page * pageSize)).take (pageSize + 1)).take pageSize =
      (hist.drop (page * pageSize)).take pageSize := by
    rw [List.take_take]
    congr 1
    omega
  obtain ⟨cs, hcs, hlen⟩ := parseLogLines_ok _ hts
  have hlecap : cs.length ≤ pageSize := by
    rw [hlen]
    refine le_trans (List.length_filter_le _ _) ?_
    rw [List.length_take]
    omega
  set slice := (hist.drop (page * pageSize)).take (pageSize + 1) with hslicedef
  by_cases hnil : slice = []
  · have hempty : hist.drop (page * pageSize) = [] := by
      cases hd : hist.drop (page * pageSize) with
      | nil => rfl
      | cons x xs =>
        rw [hslicedef, hd] at hnil
        simp at hnil
    have hlenhist : hist.length ≤ page * pageSize := by
      have := List.length_drop (page * pageSize) hist
      rw [hempty] at this
      simp at this
      omega
    have h0 : (hist.drop (page * pageSize)).take pageSize = [] := by
      rw [hempty, List.take_nil]
    rw [h0] at hcs hlen
    have hcs0 : cs = [] := by
      simp only [parseLogLines, Except.ok.injEq] at hcs
      exact hcs.symm
    subst hcs0
    refine ⟨[], ?_, by simp, by rw [h0]; rfl, by rw [h0]; rfl⟩
    have h3 : ¬([([] : Str)].length > pageSize) := by
      simp
      omega
    have h4 : decide (hist.length > page * pageSize + pageSize) = false := by
      rw [decide_eq_false_iff_not]
      omega
    rw [h4, logGo, gitLogCmdOut, ← hslicedef, hnil]
    rw [show List.intercalate ['\n'] ([] : List Str) = [] from rfl]
    have h5 : trimSpaceGo [] = [] := rfl
    rw [h5, List.splitOn_nil, if_neg h3]
    rw [show parseLogLines [[]] = Except.ok ([] : List Commit) from rfl]
    rw [decide_eq_false h3]
  · obtain ⟨l0, ls, hcons⟩ := List.exists_cons_of_ne_nil hnil
    have hprops : ∀ l ∈ slice, l ≠ [] ∧ ('\n' ∉ l) ∧
        isSpaceGo (l.headD ' ') = false ∧ isSpaceGo (l.getLastD ' ') = false := by
      intro l hl
      have h := hsliceprop l (hslicedef ▸ hl)
      simp only [cleanLogLine, Bool.and_eq_true, decide_eq_true_eq,
        Bool.not_eq_true'] at h
      tauto
    have hl0mem : l0 ∈ slice := by
      rw [hcons]
      exact List.mem_cons_self _ _
    have hne0 : l0 ≠ [] := (hprops l0 hl0mem).1
    have hout : trimSpaceGo (List.intercalate ['\n'] slice) =
        List.intercalate ['\n'] slice := by
      rw [hcons]
      apply trimBothP_eq_self
      · intro c hc
        rw [head?_intercalate _ _ _ hne0] at hc
        have hsp := (hprops l0 hl0mem).2.2.1
        cases l0 with
        | nil => exact absurd rfl hne0
        | cons a t =>
          simp only [List.head?_cons, Option.some.injEq] at hc
          subst hc
          exact hsp
      · intro c hc
        have hallne : ∀ l ∈ l0 :: ls, l ≠ [] := by
          intro l hl
          exact (hprops l (hcons ▸ hl)).1
        rw [getLast?_intercalate _ _ _ hallne] at hc
        have hmem : (l0 :: ls).getLast (List.cons_ne_nil l0 ls) ∈ slice := by
          rw [hcons]
          exact List.getLast_mem (List.cons_ne_nil l0 ls)
        have hsp := (hprops _ hmem).2.2.2
        rw [List.getLastD_eq_getLast?, hc] at hsp
        exact hsp
    have hsplit : (List.intercalate ['\n'] slice).splitOn '\n' = slice := by
      exact List.splitOn_intercalate slice '\n' (fun l hl => (hprops l hl).2.1) hnil
    have hlenslice : slice.length = min (pageSize + 1) (hist.length - page * pageSize) := by
      rw [hslicedef, List.length_take, List.length_drop]
    have hhm : decide (slice.length > pageSize) =
        decide (hist.length > page * pageSize + pageSize) := by
      rw [decide_eq_decide, hlenslice]
      omega
    have htr2 : (if slice.length > pageSize then slice.take pageSize else slice) =
        slice.take pageSize := by
      split
      · rfl
      · exact (List.take_of_length_le (by omega)).symm
    refine ⟨cs, ?_, hlecap, hcs, hlen⟩
    have hfin : logGo hist page pageSize = .ok (cs, decide (slice.length > pageSize)) := by
      simp only [logGo, gitLogCmdOut, ← hslicedef]
      rw [hout, hsplit, htr2, htrunc, hcs]
    rw [hfin, hhm]

/-- Witness for C9: a two-commit history paged with `pageSize = 1` —
one commit returned, `hasMore = true`. -/
theorem log_pagination_witness :
    ∃ cs, logGo ["h\x00a\x00e\x0012\x00m".toList, "i\x00b\x00f\x0034\x00n".toList] 0 1 =
        .ok (cs, decide ((["h\x00a\x00e\x0012\x00m".toList,
          "i\x00b\x00f\x0034\x00n".toList] : List Str).length > 0 * 1 + 1)) ∧
      cs.length ≤ 1 ∧
      parseLogLines (((["h\x00a\x00e\x0012\x00m".toList,
          "i\x00b\x00f\x0034\x00n".toList] : List Str).drop (0 * 1)).take 1) = .ok cs ∧
      cs.length = ((((["h\x00a\x00e\x0012\x00m".toList,
          "i\x00b\x00f\x0034\x00n".toList] : List Str).drop (0 * 1)).take 1).filter
        (fun l => decide ((l.splitOn '\x00').length = 5))).length :=
  log_pagination _ 0 1 (by decide) (by decide) (by decide)

/-- C2: `BuildStatic` is all-or-nothing for the published output
directory: with a fresh scratch directory, (1) an empty tracked-file
list fails with the dedicated descriptive error, (2) every failing run
leaves the published directory untouched and removes the scratch
directory — including a failing final promotion rename, after which the
rotated backup has been renamed back into the published location — and
(3) a successful run replaces the published location with the newly
built tree and leaves neither the `.old` backup nor the scratch
directory behind. -/
theorem buildStatic_atomic {α : Type} (e : BuildEnv) (fresh built : α) (fs : FS3 α)
    (hfsTemp : fs.scratch = none) :
    (e.mkdirTempFail = false → e.layoutFail = false → e.listFail = false →
      e.files = [] → (buildStaticGo e fresh built fs).1 = .error .noTrackedFiles) ∧
    (∀ err, (buildStaticGo e fresh built fs).1 = .error err →
      (buildStaticGo e fresh built fs).2.published = fs.published ∧
      (buildStaticGo e fresh built fs).2.scratch = none) ∧
    ((buildStaticGo e fresh built fs).1 = .ok () →
      (buildStaticGo e fresh built fs).2.published = some built ∧
      (buildStaticGo e fresh built fs).2.backup = none ∧
      (buildStaticGo e fresh built fs).2.scratch = none) := by
  refine ⟨?_, ?_, ?_⟩
  · intro hm hl hli hf
    have hp : preflight e = some .noTrackedFiles := by
      simp [preflight, hl, hli, hf]
    simp [buildStaticGo, hm, hp, buildAbort]
  · intro err herr
    by_cases hm : e.mkdirTempFail = true
    · simp [buildStaticGo, hm, hfsTemp]
    · rcases hpre : preflight e with _ | perr
      · rcases hw : writesErr e with _ | werr
        · by_cases hrot : e.rotateFail = true
          · simp [buildStaticGo, hm, hpre, hw, hrot, buildAbort]
          · rcases hpub : fs.published with _ | v
            · by_cases hact : e.activateFail = true
              · simp [buildStaticGo, hm, hpre, hw, hrot, hpub, activateStep, hact]
              · simp [buildStaticGo, hm, hpre, hw, hrot, hpub, activateStep,
                  hact] at herr
            · by_cases hact : e.activateFail = true
              · simp [buildStaticGo, hm, hpre, hw, hrot, hpub, activateStep, hact]
              · simp [buildStaticGo, hm, hpre, hw, hrot, hpub, activateStep,
                  hact] at herr
        · simp [buildStaticGo, hm, hpre, hw, buildAbort]
      · simp [buildStaticGo, hm, hpre, buildAbort]
  · intro hok
    by_cases hm : e.mkdirTempFail = true
    · simp [buildStaticGo, hm] at hok
    · rcases hpre : preflight e with _ | perr
      · rcases hw : writesErr e with _ | werr
        · by_cases hrot : e.rotateFail = true
          · simp [buildStaticGo, hm, hpre, hw, hrot, buildAbort] at hok
          · rcases hpub : fs.published with _ | v
            · by_cases hact : e.activateFail = true
              · simp [buildStaticGo, hm, hpre, hw, hrot, hpub, activateStep,
                  hact] at hok
              · simp [buildStaticGo, hm, hpre, hw, hrot, hpub, activateStep, hact]
            · by_cases hact : e.activateFail = true
              · simp [buildStaticGo, hm, hpre, hw, hrot, hpub, activateStep,
                  hact] at hok
              · simp [buildStaticGo, hm, hpre, hw, hrot, hpub, activateStep, hact]
        · simp [buildStaticGo, hm, hpre, hw, buildAbort] at hok
      · simp [buildStaticGo, hm, hpre, buildAbort] at hok

/-- Witness for C2: a fully successful build over a previously published
snapshot promotes the new tree and cleans up backup and scratch. -/
theorem buildStatic_atomic_witness :
    (buildStaticGo
        { mkdirTempFail := false, layoutFail := false, listFail := false,
          files := ["Home.md".toList], renderFail := false, copyAssetFail := false,
          writeDocsFail := false, writeDirFail := false, write404Fail := false,
          write403Fail := false, indexFail := false, writeIndexFail := false,
          staticDir := false, copyTreeFail := false, homeAliasFail := false,
          mkdirParentFail := false, cleanBackupFail := false, rotateFail := false,
          activateFail := false }
        (0 : Nat) 2 ⟨some 1, none, none⟩).2.published = some 2 ∧
    (buildStaticGo
        { mkdirTempFail := false, layoutFail := false, listFail := false,
          files := ["Home.md".toList], renderFail := false, copyAssetFail := false,
          writeDocsFail := false, writeDirFail := false, write404Fail := false,
          write403Fail := false, indexFail := false, writeIndexFail := false,
          staticDir := false, copyTreeFail := false, homeAliasFail := false,
          mkdirParentFail := false, cleanBackupFail := false, rotateFail := false,
          activateFail := false }
        (0 : Nat) 2 ⟨some 1, none, none⟩).2.backup = none ∧
    (buildStaticGo
        { mkdirTempFail := false, layoutFail := false, listFail := false,
          files := ["Home.md".toList], renderFail := false, copyAssetFail := false,
          writeDocsFail := false, writeDirFail := false, write404Fail := false,
          write403Fail := false, indexFail := false, writeIndexFail := false,
          staticDir := false, copyTreeFail := false, homeAliasFail := false,
          mkdirParentFail := false, cleanBackupFail := false, rotateFail := false,
          activateFail := false }
        (0 : Nat) 2 ⟨some 1, none, none⟩).2.scratch = none := by
  exact (buildStatic_atomic _ 0 2 ⟨some 1, none, none⟩ rfl).2.2 (by rfl)

/-- Character facts about the base-36 digit alphabet: each digit decodes
to its index, is not whitespace, not a dot, and is already lower case. -/
theorem b36_facts : ∀ m, m < 36 →
    digitIdx (b36Digits.getD m ' ') = some m ∧
    isSpaceGo (b36Digits.getD m ' ') = false ∧
    b36Digits.getD m ' ' ≠ '.' ∧
    toLowerGo (b36Digits.getD m ' ') = b36Digits.getD m ' ' := by
  decide

/-- Every character of `encLoop v` is a base-36 digit: decodable,
non-space, not a dot, lower-case-fixed. -/
theorem encLoop_chars : ∀ v, ∀ c ∈ encLoop v,
    digitIdx c ≠ none ∧ isSpaceGo c = false ∧ c ≠ '.' ∧ toLowerGo c = c := by
  intro v
  induction v using Nat.strong_induction_on with
  | _ v ih =>
    intro c hc
    match v with
    | 0 => simp [encLoop] at hc
    | w + 1 =>
      rw [encLoop] at hc
      rcases List.mem_append.mp hc with h | h
      · exact ih ((w + 1) / 36) (Nat.div_lt_self (Nat.succ_pos w) (by omega)) c h
      · rw [List.mem_singleton] at h
        subst h
        obtain ⟨h1, h2, h3, h4⟩ := b36_facts ((w + 1) % 36) (Nat.mod_lt _ (by omega))
        exact ⟨by rw [h1]; simp, h2, h3, h4⟩

/-- `encLoop` of a positive number is nonempty. -/
theorem encLoop_ne_nil (v : Nat) (hv : 0 < v) : encLoop v ≠ [] := by
  match v with
  | w + 1 =>
    rw [encLoop]
    simp

/-- `decLoop` distributes over an append of valid digits. -/
theorem decLoop_append (acc : Int) (xs ys : Str)
    (h : ∀ c ∈ xs, digitIdx c ≠ none) :
    decLoop acc (xs ++ ys) = decLoop (decLoop acc xs) ys := by
  induction xs generalizing acc with
  | nil => rfl
  | cons c rest ih =>
    rw [List.cons_append, decLoop, decLoop]
    cases hd : digitIdx c with
    | none => exact absurd hd (h c (List.mem_cons_self c rest))
    | some i => exact ih _ (fun d hdm => h d (List.mem_cons_of_mem c hdm))

/-- The decoding loop inverts the encoding loop. -/
theorem decLoop_encLoop : ∀ v : Nat, ∀ acc : Int,
    decLoop acc (encLoop v) = acc * 36 ^ (encLoop v).length + v := by
  intro v
  induction v using Nat.strong_induction_on with
  | _ v ih =>
    intro acc
    match v with
    | 0 => simp [encLoop, decLoop]
    | w + 1 =>
      have hq : (w + 1) / 36 < w + 1 := Nat.div_lt_self (Nat.succ_pos w) (by omega)
      obtain ⟨h1, -, -, -⟩ := b36_facts ((w + 1) % 36) (Nat.mod_lt _ (by omega))
      rw [encLoop, decLoop_append _ _ _
        (fun c hc => (encLoop_chars _ c hc).1)]
      rw [ih _ hq acc]
      rw [show decLoop (acc * 36 ^ (encLoop ((w + 1) / 36)).length + ((w + 1) / 36 : Nat))
          [b36Digits.getD ((w + 1) % 36) ' '] =
          (acc * 36 ^ (encLoop ((w + 1) / 36)).length + ((w + 1) / 36 : Nat)) * 36 +
            ((w + 1) % 36 : Nat) from by rw [decLoop, h1]; rfl]
      rw [List.length_append, List.length_singleton, pow_succ, ← mul_assoc]
      generalize acc * 36 ^ (encLoop ((w + 1) / 36)).length = A
      omega

/-- The client decoder inverts the Go encoder on nonnegative values. -/
theorem decodeInt_encodeInt (n : Int) (hn : 0 ≤ n) :
    decodeIntJs (encodeIntGo n) = n := by
  by_cases h0 : n = 0
  · subst h0
    decide
  · have hpos : 0 < n := lt_of_le_of_ne hn (Ne.symm h0)
    rw [encodeIntGo, if_neg h0, if_neg (by omega : ¬n < 0)]
    have hchars := encLoop_chars n.toNat
    have hne : encLoop n.toNat ≠ [] := encLoop_ne_nil _ (by omega)
    have htrim : trimSpaceGo (encLoop n.toNat) = encLoop n.toNat := by
      apply trimBothP_eq_self
      · intro c hc
        exact (hchars c (List.mem_of_mem_head? hc)).2.1
      · intro c hc
        exact (hchars c (List.mem_of_mem_getLast? hc)).2.1
    have hlower : mapLower (encLoop n.toNat) = encLoop n.toNat := by
      rw [mapLower]
      conv_rhs => rw [← List.map_id (encLoop n.toNat)]
      exact List.map_congr_left (fun c hc => (hchars c hc).2.2.2)
    simp only [decodeIntJs, htrim, hlower, if_neg hne]
    rw [decLoop_encLoop]
    simp [Int.toNat_of_nonneg hn]

/-- A nonnegative value encodes to a nonempty digit string. -/
theorem encodeInt_ne_nil (v : Int) (hv : 0 ≤ v) : encodeIntGo v ≠ [] := by
  by_cases h0 : v = 0
  · subst h0
    decide
  · rw [encodeIntGo, if_neg h0, if_neg (by omega : ¬v < 0)]
    exact encLoop_ne_nil _ (by omega)

/-- No encoded integer contains the position separator dot. -/
theorem dot_not_mem_encodeInt (v : Int) : '.' ∉ encodeIntGo v := by
  rw [encodeIntGo]
  split
  · decide
  · split
    · simp
    · intro hmem
      exact (encLoop_chars _ _ hmem).2.2.1 rfl

/-- `splitOn` through a leading dot-free chunk. -/
theorem splitOn_chunk (xs ys : Str) (hxs : '.' ∉ xs) :
    (xs ++ '.' :: ys).splitOn '.' = xs :: ys.splitOn '.' := by
  show (xs ++ '.' :: ys).splitOnP (· == '.') = xs :: ys.splitOnP (· == '.')
  exact List.splitOnP_first (· == '.') xs
    (fun x hx => by simp; intro h; exact hxs (h ▸ hx)) '.' (by simp) ys

/-- A dot-free chunk splits to itself. -/
theorem splitOn_single (xs : Str) (hxs : '.' ∉ xs) :
    xs.splitOn '.' = [xs] := by
  show xs.splitOnP (· == '.') = [xs]
  exact List.splitOnP_eq_single _ _ (fun x hx => by simp; intro h; exact hxs (h ▸ hx))

/-- The decoding loop of `decodePositions` inverts the encoding loop of
`encodePositions`: decoding the split pieces of the gap encoding starting
from a running total recovers the absolute positions. -/
theorem decPos_aux : ∀ (rest : List Int) (p total : Int), 0 ≤ p - total →
    List.Chain' (· < ·) (p :: rest) →
    decPosLoop total ((encodeIntGo (p - total) ++ encPosLoop p rest).splitOn '.') =
      p :: rest := by
  intro rest
  induction rest with
  | nil =>
    intro p total hge _
    rw [encPosLoop, List.append_nil, splitOn_single _ (dot_not_mem_encodeInt _)]
    rw [decPosLoop, decodeInt_encodeInt _ hge, decPosLoop]
    congr 1
    omega
  | cons q rest' ih =>
    intro p total hge hchain
    have hpq : p < q := (List.chain'_cons.mp hchain).1
    have hchain' : List.Chain' (· < ·) (q :: rest') := (List.chain'_cons.mp hchain).2
    rw [encPosLoop, List.cons_append, splitOn_chunk _ _ (dot_not_mem_encodeInt _)]
    rw [decPosLoop, decodeInt_encodeInt _ hge]
    have ht : total + (p - total) = p := by omega
    rw [ht]
    rw [ih q p (by omega) hchain']

/-- C3: the search-index encodings are reversible — decoding the base-36
string produced by `encodeInt` recovers every nonnegative integer, and
decoding the dot-joined delta encoding produced by `encodePositions`
recovers every strictly increasing list of nonnegative positions. -/
theorem encoding_reversible :
    (∀ n : Int, 0 ≤ n → decodeIntJs (encodeIntGo n) = n) ∧
    (∀ l : List Int, (∀ x ∈ l, 0 ≤ x) → List.Chain' (· < ·) l →
      decodePositionsJs (encodePositionsGo l) = l) := by
  refine ⟨decodeInt_encodeInt, ?_⟩
  intro l hnn hchain
  cases l with
  | nil => rfl
  | cons p rest =>
    have hp : 0 ≤ p := hnn p (List.mem_cons_self p rest)
    rw [encodePositionsGo, decodePositionsJs]
    rw [if_neg (fun h => encodeInt_ne_nil p hp (List.append_eq_nil.mp h).1)]
    have h := decPos_aux rest p 0 (by omega) hchain
    rw [sub_zero] at h
    exact h

/-- Witness for C3 at `n = 12345` and the position list `[0, 3, 7]`. -/
theorem encoding_reversible_witness :
    decodeIntJs (encodeIntGo 12345) = 12345 ∧
    decodePositionsJs (encodePositionsGo [0, 3, 7]) = [0, 3, 7] :=
  ⟨encoding_reversible.1 12345 (by decide),
   encoding_reversible.2 [0, 3, 7] (by decide)
     (List.chain'_cons.mpr ⟨by decide, List.chain'_cons.mpr ⟨by decide, List.chain'_singleton 7⟩⟩)⟩

/-- Every token that `processField` emits has passed `shouldIndexToken`. -/
theorem pfLoop_emitted (T : UTables) :
    ∀ (rest : Str) (builder : Str) (tok : Str), tok ∈ pfLoop T builder rest →
      shouldIndexToken tok = true := by
  intro rest
  induction rest with
  | nil =>
    intro builder tok htok
    rw [pfLoop] at htok
    split at htok
    · split at htok
      · rw [List.mem_singleton] at htok
        subst htok
        assumption
      · simp at htok
    · simp at htok
  | cons r rest ih =>
    intro builder tok htok
    rw [pfLoop] at htok
    split at htok
    · exact ih builder tok htok
    · split at htok
      · exact ih _ tok htok
      · split at htok
        · rcases List.mem_append.mp htok with h | h
          · split at h
            · rw [List.mem_singleton] at h
              subst h
              assumption
            · simp at h
          · exact ih [] tok h
        · exact ih [] tok htok

/-- A token of UTF-8 byte length one is a single ASCII character. -/
theorem utf8Len_one (tok : Str) (h : utf8Len tok = 1) :
    ∃ c : Char, tok = [c] := by
  match tok with
  | [] => simp [utf8Len] at h
  | [c] => exact ⟨c, rfl⟩
  | c :: d :: t =>
    exfalso
    have hc := Char.utf8Size_pos c
    have hd := Char.utf8Size_pos d
    have ht : 0 ≤ ((t.map Char.utf8Size).sum : Nat) := Nat.zero_le _
    simp only [utf8Len, List.map_cons, List.sum_cons] at h
    omega

/-- C8 (amended): after tokenization, every emitted token whose UTF-8
byte length is one — the length Go's `len(token) == 1` check measures —
is a single ASCII decimal digit; single-character tokens encoding to
several UTF-8 bytes are kept regardless, and a single decimal digit is
always kept.  This holds for every choice of Unicode tables. -/
theorem processField_single_byte (T : UTables) (text : Str) :
    (∀ tok ∈ processFieldGo T text, utf8Len tok = 1 →
      ∃ c, tok = [c] ∧ '0'.toNat ≤ c.toNat ∧ c.toNat ≤ '9'.toNat) ∧
    (∀ c : Char, '0'.toNat ≤ c.toNat → c.toNat ≤ '9'.toNat →
      shouldIndexToken [c] = true) := by
  constructor
  · intro tok htok hlen
    have hsit : shouldIndexToken tok = true := by
      rw [processFieldGo] at htok
      split at htok
      · simp at htok
      · exact pfLoop_emitted T _ [] tok htok
    obtain ⟨c, hc⟩ := utf8Len_one tok hlen
    subst hc
    rw [shouldIndexToken] at hsit
    rw [if_pos hlen] at hsit
    rw [decide_eq_true_eq] at hsit
    exact ⟨c, rfl, hsit.1, hsit.2⟩
  · intro c h0 h9
    rw [shouldIndexToken]
    split
    · rw [decide_eq_true_eq]
      exact ⟨h0, h9⟩
    · rfl

/-- Witness for C8 (amended) at the text `"a 7 x"` under the concrete
tables: the emitted byte-length-one token `"7"` is indeed a digit. -/
theorem processField_single_byte_witness :
    (∃ c, ['7'] = [c] ∧ '0'.toNat ≤ c.toNat ∧ c.toNat ≤ '9'.toNat) ∧
      shouldIndexToken ['7'] = true :=
  ⟨(processField_single_byte betaTables "a 7 x".toList).1 ['7'] (by decide) (by decide),
   (processField_single_byte betaTables "a 7 x".toList).2 '7' (by decide) (by decide)⟩

/-- Counterexample to C8 as stated: under the (faithfully restricted)
Unicode tables, the text `"β"` makes `processField` emit the token `"β"`
— a single-character token that is not a decimal digit — because Go's
`len(token) == 1` measures bytes and β occupies two UTF-8 bytes. -/
theorem processField_single_char_counterexample :
    ∃ tok, tok ∈ processFieldGo betaTables "β".toList ∧ tok.length = 1 ∧
      ∀ c, tok = [c] → ¬('0'.toNat ≤ c.toNat ∧ c.toNat ≤ '9'.toNat) := by
  refine ⟨['β'], by decide, by decide, ?_⟩
  intro c hc
  cases hc
  decide

/-- `cleanStep` appends every good segment unchanged. -/
theorem foldl_cleanStep_good (r : Bool) :
    ∀ (l : List Str) (out0 : List Str), (∀ s ∈ l, goodPiece s = true) →
      l.foldl (cleanStep r) out0 = out0 ++ l := by
  intro l
  induction l with
  | nil =>
    intro out0 _
    simp
  | cons s l' ih =>
    intro out0 hgood
    have hs := hgood s (List.mem_cons_self s l')
    simp only [goodPiece, decide_eq_true_eq] at hs
    rw [List.foldl_cons]
    rw [show cleanStep r out0 s = out0 ++ [s] from by
      rw [cleanStep, if_neg (by tauto), if_neg (by tauto)]]
    rw [ih (out0 ++ [s]) (fun t ht => hgood t (List.mem_cons_of_mem s ht))]
    simp

/-- `path.Clean` is the identity on a nonempty relative path whose
slash-separated segments are all good. -/
theorem pathClean_of_good (q : Str) (hq : q ≠ []) (hroot : q.head? ≠ some '/')
    (hsegs : ∀ s ∈ q.splitOn '/', goodPiece s = true) : pathClean q = q := by
  rw [pathClean, if_neg hq]
  have hr : decide (q.head? = some '/') = false := decide_eq_false hroot
  simp only [hr]
  rw [foldl_cleanStep_good _ _ _ hsegs]
  simp only [List.nil_append, Bool.false_eq_true, if_false]
  rw [List.intercalate_splitOn]
  rw [if_neg hroot]
  simp [hq]

/-- `intercalate` over a snoc of pieces. -/
theorem intercalate_concat {α : Type} (s : List α) (y : List α) :
    ∀ (xs : List (List α)), xs ≠ [] →
      List.intercalate s (xs ++ [y]) = List.intercalate s xs ++ s ++ y := by
  intro xs
  induction xs with
  | nil => intro h; exact absurd rfl h
  | cons a t ih =>
    intro _
    cases t with
    | nil =>
      calc List.intercalate s ([a] ++ [y])
          = List.intercalate s (a :: y :: []) := rfl
        _ = a ++ s ++ List.intercalate s [y] := intercalate_two s a y []
        _ = a ++ s ++ y := by rw [intercalate_one]
        _ = List.intercalate s [a] ++ s ++ y := by rw [intercalate_one]
    | cons b t' =>
      calc List.intercalate s ((a :: b :: t') ++ [y])
          = List.intercalate s (a :: b :: (t' ++ [y])) := rfl
        _ = a ++ s ++ List.intercalate s (b :: (t' ++ [y])) :=
            intercalate_two s a b (t' ++ [y])
        _ = a ++ s ++ List.intercalate s ((b :: t') ++ [y]) := rfl
        _ = a ++ s ++ (List.intercalate s (b :: t') ++ s ++ y) := by
            rw [ih (List.cons_ne_nil b t')]
        _ = List.intercalate s (a :: b :: t') ++ s ++ y := by
            rw [intercalate_two]
            simp [List.append_assoc]

/-- The head of a nonempty all-good path is not a slash. -/
theorem head_ne_slash (q : Str) (hq : q ≠ [])
    (hsegs : ∀ s ∈ q.splitOn '/', goodPiece s = true) :
    ∀ c, q.head? = some c → c ≠ '/' := by
  intro c hc
  obtain ⟨p0, rest, hsplit⟩ : ∃ p0 rest, q.splitOn '/' = p0 :: rest := by
    cases h : q.splitOn '/' with
    | nil =>
      exfalso
      have : q.splitOn '/' ≠ [] := by
        rw [List.splitOn]
        exact List.splitOnP_ne_nil _ q
      exact this h
    | cons p0 rest => exact ⟨p0, rest, rfl⟩
  have hp0 : goodPiece p0 = true := hsegs p0 (hsplit ▸ List.mem_cons_self _ _)
  have hp0ne : p0 ≠ [] := by
    simp only [goodPiece, decide_eq_true_eq] at hp0
    tauto
  have hqi : q = List.intercalate ['/'] (p0 :: rest) := by
    conv_lhs => rw [← List.intercalate_splitOn q '/']
    rw [hsplit]
  rw [hqi, head?_intercalate _ _ _ hp0ne] at hc
  have hcm : c ∈ p0 := List.mem_of_mem_head? hc
  have := splitOn_pieces '/' q p0 (hsplit ▸ List.mem_cons_self _ _)
  intro hcc
  subst hcc
  exact this hcm

/-- The last character of a nonempty all-good path is not a slash. -/
theorem last_ne_slash (q : Str) (hq : q ≠ [])
    (hsegs : ∀ s ∈ q.splitOn '/', goodPiece s = true) :
    ∀ c, q.getLast? = some c → c ≠ '/' := by
  intro c hc
  obtain ⟨p0, rest, hsplit⟩ : ∃ p0 rest, q.splitOn '/' = p0 :: rest := by
    cases h : q.splitOn '/' with
    | nil =>
      exfalso
      have : q.splitOn '/' ≠ [] := by
        rw [List.splitOn]
        exact List.splitOnP_ne_nil _ q
      exact this h
    | cons p0 rest => exact ⟨p0, rest, rfl⟩
  have hallne : ∀ l ∈ p0 :: rest, l ≠ [] := by
    intro l hl
    have := hsegs l (hsplit ▸ hl)
    simp only [goodPiece, decide_eq_true_eq] at this
    tauto
  have hqi : q = List.intercalate ['/'] (p0 :: rest) := by
    conv_lhs => rw [← List.intercalate_splitOn q '/']
    rw [hsplit]
  rw [hqi, getLast?_intercalate _ _ _ hallne] at hc
  have hlmem : (p0 :: rest).getLast (List.cons_ne_nil p0 rest) ∈ p0 :: rest :=
    List.getLast_mem _
  have hcm : c ∈ (p0 :: rest).getLast (List.cons_ne_nil p0 rest) :=
    List.mem_of_mem_getLast? hc
  have hlq : (p0 :: rest).getLast (List.cons_ne_nil p0 rest) ∈ q.splitOn '/' := by
    rw [hsplit]
    exact hlmem
  have := splitOn_pieces '/' q _ hlq
  intro hcc
  subst hcc
  exact this hcm

/-- `dropWhile` is the identity when the head does not satisfy the
predicate. -/
theorem dropWhile_eq_self_of_head (p : Char → Bool) (t : Str)
    (ht : ∀ c, t.head? = some c → p c = false) : t.dropWhile p = t := by
  cases t with
  | nil => rfl
  | cons a t' =>
    rw [List.dropWhile_cons, if_neg]
    simp [ht a rfl]

/-- Trimming a suffix just appended recovers the original list. -/
theorem trimSuf_append (suf x : Str) : trimSuf suf (x ++ suf) = x := by
  rw [trimSuf, if_pos (List.isSuffixOf_iff_suffix.mpr (List.suffix_append x suf))]
  rw [List.length_append, Nat.add_sub_cancel, List.take_left]

/-- Splitting a good base joined with one further dot-free piece. -/
theorem splitOn_join (b ih : Str) (hbne : b ≠ [])
    (hgood : ∀ s ∈ b.splitOn '/', goodPiece s = true) (hih : '/' ∉ ih) :
    (b ++ '/' :: ih).splitOn '/' = b.splitOn '/' ++ [ih] := by
  have hsne : b.splitOn '/' ≠ [] := by
    rw [List.splitOn]
    exact List.splitOnP_ne_nil _ b
  have hb : b = List.intercalate ['/'] (b.splitOn '/') := by
    conv_lhs => rw [← List.intercalate_splitOn b '/']
  have hjoin : b ++ '/' :: ih = List.intercalate ['/'] (b.splitOn '/' ++ [ih]) := by
    rw [intercalate_concat _ _ _ hsne]
    conv_lhs => rw [hb]
    simp
  rw [hjoin]
  apply List.splitOn_intercalate
  · intro l hl
    rcases List.mem_append.mp hl with h | h
    · exact splitOn_pieces '/' b l h
    · rw [List.mem_singleton] at h
      subst h
      exact hih
  · intro h
    exact hsne (List.append_eq_nil.mp h).1

/-- C7 (amended): a tracked document path that is not the home document
and whose extension-stripped base has no empty, `.` or `..` segments (or
is empty) round-trips between its logical route and its generated output
path, in both directions; the home document maps to the route `/` and
the output path `index.html`. -/
theorem route_output_correspond (rel homeDoc : Str) :
    (equalFoldGo (docNorm rel) (homeNorm homeDoc) = true →
      routeFromPath rel homeDoc = ['/'] ∧
      htmlPathFrom rel homeDoc = "index.html".toList) ∧
    (equalFoldGo (docNorm rel) (homeNorm homeDoc) = false →
      (docBase rel = [] ∨ ∀ s ∈ (docBase rel).splitOn '/', goodPiece s = true) →
      routeOfOutput (htmlPathFrom rel homeDoc) = routeFromPath rel homeDoc ∧
      outputOfRoute (routeFromPath rel homeDoc) = htmlPathFrom rel homeDoc) := by
  have hroute : routeFromPath rel homeDoc =
      (if equalFoldGo (docNorm rel) (homeNorm homeDoc) = true then ['/']
       else if docBase rel = [] then ['/'] else '/' :: docBase rel ++ ['/']) := rfl
  have hhtml : htmlPathFrom rel homeDoc =
      (if equalFoldGo (docNorm rel) (homeNorm homeDoc) = true then "index.html".toList
       else if docBase rel = [] then "index.html".toList
       else pathJoin2 (docBase rel) "index.html".toList) := rfl
  constructor
  · intro h
    rw [hroute, hhtml, if_pos h, if_pos h]
    exact ⟨rfl, rfl⟩
  · intro h hbase
    simp only [hroute, hhtml, h, Bool.false_eq_true, if_false]
    rcases hbase with hb | hgood
    · rw [if_pos hb, if_pos hb]
      exact ⟨by decide, by decide⟩
    · have hbne : docBase rel ≠ [] := by
        intro h0
        have := hgood [] (by rw [h0]; exact List.mem_singleton.mpr rfl)
        simp [goodPiece] at this
      rw [if_neg hbne, if_neg hbne]
      have hheadb : ∀ c, (docBase rel).head? = some c → c ≠ '/' :=
        head_ne_slash _ hbne hgood
      have hlastb : ∀ c, (docBase rel).getLast? = some c → c ≠ '/' :=
        last_ne_slash _ hbne hgood
      have hsplit2 : (docBase rel ++ '/' :: "index.html".toList).splitOn '/' =
          (docBase rel).splitOn '/' ++ ["index.html".toList] :=
        splitOn_join _ _ hbne hgood (by decide)
      have hjoin : pathJoin2 (docBase rel) "index.html".toList =
          docBase rel ++ '/' :: "index.html".toList := by
        rw [pathJoin2, if_neg (by simp [hbne]), if_neg hbne, if_neg (by decide)]
        apply pathClean_of_good
        · simp [hbne]
        · rw [List.head?_append_of_ne_nil _ hbne]
          intro hcon
          exact hheadb '/' hcon rfl
        · rw [hsplit2]
          intro s hs
          rcases List.mem_append.mp hs with hm | hm
          · exact hgood s hm
          · rw [List.mem_singleton] at hm
            subst hm
            decide
      rw [hjoin]
      have hJ : ('/' :: "index.html".toList : Str) = "/index.html".toList := rfl
      constructor
      · rw [routeOfOutput, if_neg (by
          intro hcon
          have := congrArg List.length hcon
          simp at this)]
        rw [hJ, trimSuf_append]
      · rw [outputOfRoute, if_neg (by
          intro hcon
          have := congrArg List.length hcon
          simp at this)]
        have htrim : trimBothP (fun c => c = '/') ('/' :: docBase rel ++ ['/']) =
            docBase rel := by
          rw [trimBothP]
          rw [List.cons_append, List.dropWhile_cons, if_pos (by simp)]
          rw [dropWhile_eq_self_of_head _ (docBase rel ++ ['/']) (by
            intro c hc
            rw [List.head?_append_of_ne_nil _ hbne] at hc
            simp [hheadb c hc])]
          rw [List.reverse_append, List.reverse_singleton, List.singleton_append,
            List.dropWhile_cons, if_pos (by simp)]
          rw [dropWhile_eq_self_of_head _ (docBase rel).reverse (by
            intro c hc
            rw [List.head?_reverse] at hc
            simp [hlastb c hc])]
          exact List.reverse_reverse _
        rw [htrim, hJ]

/-- Counterexample to C7 as stated: the trackable document `..md` (not
the home document — its route is `/./`) produces the output path
`index.html`, colliding with the home document's output path, so routes
and output paths are not in one-to-one correspondence and the route
cannot be recovered from the output path. -/
theorem route_output_counterexample :
    htmlPathFrom "..md".toList "Home.md".toList =
      htmlPathFrom "Home.md".toList "Home.md".toList ∧
    routeFromPath "..md".toList "Home.md".toList ≠
      routeFromPath "Home.md".toList "Home.md".toList ∧
    routeOfOutput (htmlPathFrom "..md".toList "Home.md".toList) ≠
      routeFromPath "..md".toList "Home.md".toList := by
  refine ⟨by decide, by decide, by decide⟩

/-- Witness for C7 (amended) at the document `foo/bar.md`. -/
theorem route_output_correspond_witness :
    routeOfOutput (htmlPathFrom "foo/bar.md".toList "Home.md".toList) =
      routeFromPath "foo/bar.md".toList "Home.md".toList ∧
    outputOfRoute (routeFromPath "foo/bar.md".toList "Home.md".toList) =
      htmlPathFrom "foo/bar.md".toList "Home.md".toList :=
  (route_output_correspond "foo/bar.md".toList "Home.md".toList).2 (by decide)
    (Or.inr (by decide))

/-- Characters of a piece occur in the intercalation. -/
theorem mem_intercalate_of_mem {α : Type} (s : List α) :
    ∀ (L : List (List α)) (u : List α), u ∈ L → ∀ c ∈ u, c ∈ List.intercalate s L := by
  intro L
  induction L with
  | nil => intro u hu; simp at hu
  | cons a t ih =>
    intro u hu c hc
    cases t with
    | nil =>
      rw [List.mem_singleton] at hu
      subst hu
      rw [intercalate_one]
      exact hc
    | cons b t' =>
      rw [intercalate_two]
      rcases List.mem_cons.mp hu with h | h
      · subst h
        simp [hc]
      · simp [ih u h c hc]

/-- Characters of an intercalation come from the separator or a piece. -/
theorem mem_of_mem_intercalate {α : Type} (s : List α) :
    ∀ (L : List (List α)) (c : α), c ∈ List.intercalate s L →
      c ∈ s ∨ ∃ u ∈ L, c ∈ u := by
  intro L
  induction L with
  | nil => intro c hc; simp [List.intercalate] at hc
  | cons a t ih =>
    intro c hc
    cases t with
    | nil =>
      rw [intercalate_one] at hc
      exact Or.inr ⟨a, List.mem_singleton_self a, hc⟩
    | cons b t' =>
      rw [intercalate_two, List.append_assoc] at hc
      rcases List.mem_append.mp hc with h | h
      · exact Or.inr ⟨a, List.mem_cons_self a _, h⟩
      · rcases List.mem_append.mp h with h' | h'
        · exact Or.inl h'
        · rcases ih c h' with h'' | ⟨u, hu, hcu⟩
          · exact Or.inl h''
          · exact Or.inr ⟨u, List.mem_cons_of_mem a hu, hcu⟩

/-- Containment of a one-character substring is membership. -/
theorem hasSub_singleton (c : Char) :
    ∀ (s : Str), hasSub s [c] = true ↔ c ∈ s := by
  intro s
  induction s with
  | nil => simp [hasSub, List.isPrefixOf]
  | cons a t ih =>
    rw [hasSub, List.tails_cons, List.any_cons]
    constructor
    · intro h
      rcases Bool.or_eq_true_iff.mp h with h' | h'
      · cases t with
        | nil =>
          simp [List.isPrefixOf] at h'
          simp [h']
        | cons b t' =>
          simp [List.isPrefixOf] at h'
          simp [h']
      · exact List.mem_cons_of_mem a (ih.mp h')
    · intro h
      rcases List.mem_cons.mp h with h' | h'
      · subst h'
        apply Bool.or_eq_true_iff.mpr
        left
        cases t <;> simp [List.isPrefixOf]
      · have ht := ih.mpr h'
        rw [hasSub] at ht
        exact Bool.or_eq_true_iff.mpr (Or.inr ht)

/-- A segment list accepted by `checkSegs` consists of clean segments:
good pieces, no leading dash, no NUL byte. -/
theorem checkSegs_none :
    ∀ (L : List Str), checkSegs L = none →
      ∀ s ∈ L, goodPiece s = true ∧ hasPre ['-'] s = false ∧
        hasSub s ['\x00'] = false := by
  intro L
  induction L with
  | nil => intro _ s hs; simp at hs
  | cons seg rest ih =>
    intro h s hs
    rw [checkSegs] at h
    split at h
    · exact absurd h (by simp)
    · split at h
      · exact absurd h (by simp)
      · split at h
        · exact absurd h (by simp)
        · rcases List.mem_cons.mp hs with h' | h'
          · subst h'
            refine ⟨?_, ?_, ?_⟩
            · simp only [goodPiece, decide_eq_true_eq]
              tauto
            · simpa using ‹¬hasPre ['-'] s = true›
            · simpa using ‹¬hasSub s ['\x00'] = true›
          · exact ih h s h'

/-- The slash-normalized form of a path contains no backslash. -/
theorem backToSlash_no_bs (s : Str) : '\\' ∉ backToSlash s := by
  intro h
  rw [backToSlash] at h
  obtain ⟨a, _, ha⟩ := List.mem_map.mp h
  by_cases hab : a = '\\' <;> simp [hab] at ha

/-- Slash normalization is the identity on a backslash-free path. -/
theorem backToSlash_eq_self (s : Str) (h : '\\' ∉ s) : backToSlash s = s := by
  rw [backToSlash]
  conv_rhs => rw [← List.map_id s]
  apply List.map_congr_left
  intro a ha
  rw [if_neg]
  · rfl
  · intro hc
    exact h (hc ▸ ha)

/-- Trimming both ends only removes characters. -/
theorem mem_trimBothP (p : Char → Bool) (s : Str) (c : Char)
    (h : c ∈ trimBothP p s) : c ∈ s := by
  rw [trimBothP] at h
  rw [List.mem_reverse] at h
  have h1 := (List.dropWhile_sublist p).mem h
  rw [List.mem_reverse] at h1
  exact (List.dropWhile_sublist p).mem h1

/-- Stripping a prefix only removes characters. -/
theorem mem_trimPre (pre x : Str) (c : Char) (h : c ∈ trimPre pre x) : c ∈ x := by
  rw [trimPre] at h
  split at h
  · exact (List.drop_suffix pre.length x).mem h
  · exact h

/-- Stripping a leading slash is the identity when the head is not a slash. -/
theorem trimPre_eq_self (x : Str) (h : x.head? ≠ some '/') : trimPre ['/'] x = x := by
  cases x with
  | nil => rfl
  | cons a t =>
    have ha : a ≠ '/' := by
      intro he
      exact h (by simp [he])
    rw [trimPre, if_neg]
    intro hc
    simp [List.isPrefixOf] at hc
    exact ha hc.symm

/-- Stripping `./` prefixes only removes characters (stated with an
explicit length bound to drive the recursion). -/
theorem mem_dropDotSlash : ∀ (n : Nat) (x : Str) (c : Char), x.length ≤ n →
    c ∈ dropDotSlash x → c ∈ x := by
  intro n
  induction n with
  | zero =>
    intro x c hl h
    have : x = [] := List.length_eq_zero.mp (Nat.le_zero.mp hl)
    subst this
    simpa [dropDotSlash] using h
  | succ m ih =>
    intro x c hl h
    rw [dropDotSlash.eq_def] at h
    split at h
    · rename_i rest
      have hlr : rest.length ≤ m := by
        simp at hl
        omega
      exact List.mem_cons_of_mem _ (List.mem_cons_of_mem _ (ih rest c hlr h))
    · exact h

/-- Stripping `./` prefixes is the identity on a path that does not start
with `./`. -/
theorem dropDotSlash_eq_self (x : Str) (h : ∀ r, x ≠ '.' :: '/' :: r) :
    dropDotSlash x = x := by
  rw [dropDotSlash.eq_def]
  split
  · rename_i rest
    exact absurd rfl (h rest)
  · rfl

/-- Every `splitOn` result decomposes as an initial run plus a last piece. -/
theorem splitOn_last (y : Str) : ∃ L u, y.splitOn '/' = L ++ [u] := by
  have hne : y.splitOn '/' ≠ [] := by
    rw [List.splitOn]
    exact List.splitOnP_ne_nil _ y
  exact ⟨(y.splitOn '/').dropLast, (y.splitOn '/').getLast hne,
    (List.dropLast_append_getLast hne).symm⟩

/-- Appending one non-separator character extends the last `splitOn`
piece. -/
theorem splitOn_concat (x : Str) (c : Char) (L : List Str) (u : Str)
    (hc : c ≠ '/') (h : x.splitOn '/' = L ++ [u]) :
    (x ++ [c]).splitOn '/' = L ++ [u ++ [c]] := by
  have hx : x = List.intercalate ['/'] (L ++ [u]) := by
    conv_lhs => rw [← List.intercalate_splitOn x '/']
    rw [h]
  have hxc : x ++ [c] = List.intercalate ['/'] (L ++ [u ++ [c]]) := by
    cases L with
    | nil =>
      rw [hx]
      simp only [List.nil_append]
      rw [intercalate_one, intercalate_one]
    | cons l0 L' =>
      rw [hx, intercalate_concat _ _ _ (List.cons_ne_nil l0 L'),
        intercalate_concat _ _ _ (List.cons_ne_nil l0 L')]
      simp [List.append_assoc]
  rw [hxc]
  have hpieces : ∀ l ∈ L ++ [u ++ [c]], '/' ∉ l := by
    intro l hl
    rcases List.mem_append.mp hl with h' | h'
    · exact splitOn_pieces '/' x l (h ▸ List.mem_append_left [u] h')
    · rw [List.mem_singleton] at h'
      subst h'
      intro hm
      rcases List.mem_append.mp hm with h'' | h''
      · exact splitOn_pieces '/' x u (h ▸ List.mem_append_right L (List.mem_singleton_self u)) h''
      · rw [List.mem_singleton] at h''
        exact hc h''.symm
  apply List.splitOn_intercalate _ _ hpieces
  intro hnil
  exact absurd (List.append_eq_nil.mp hnil).2 (by simp)

/-- Elements accumulated by the `path.Clean` fold come from the seed, the
input segments, or are a `..` marker. -/
theorem mem_foldl_cleanStep (r : Bool) :
    ∀ (l : List Str) (out0 : List Str) (s : Str),
      s ∈ l.foldl (cleanStep r) out0 → s ∈ out0 ∨ s ∈ l ∨ s = ['.', '.'] := by
  intro l
  induction l with
  | nil => intro out0 s h; exact Or.inl h
  | cons seg l' ih =>
    intro out0 s h
    rw [List.foldl_cons] at h
    rcases ih (cleanStep r out0 seg) s h with h' | h' | h'
    · rw [cleanStep] at h'
      split at h'
      · exact Or.inl h'
      · split at h'
        · split at h'
          · exact Or.inl (List.mem_of_mem_dropLast h')
          · split at h'
            · exact Or.inl h'
            · rcases List.mem_append.mp h' with h'' | h''
              · exact Or.inl h''
              · rw [List.mem_singleton] at h''
                exact Or.inr (Or.inr h'')
        · rcases List.mem_append.mp h' with h'' | h''
          · exact Or.inl h''
          · rw [List.mem_singleton] at h''
            exact Or.inr (Or.inl (h'' ▸ List.mem_cons_self seg l'))
    · exact Or.inr (Or.inl (List.mem_cons_of_mem seg h'))
    · exact Or.inr (Or.inr h')

/-- Characters of a cleaned path come from the input path, or are a slash
or a dot. -/
theorem mem_pathClean (x : Str) (c : Char) (h : c ∈ pathClean x) :
    c ∈ x ∨ c = '/' ∨ c = '.' := by
  have key : ∀ (r : Bool),
      c ∈ List.intercalate ['/'] (List.foldl (cleanStep r) [] (x.splitOn '/')) →
        c ∈ x ∨ c = '/' ∨ c = '.' := by
    intro r h'
    rcases mem_of_mem_intercalate ['/'] _ c h' with h'' | ⟨u, hu, hcu⟩
    · rw [List.mem_singleton] at h''
      exact Or.inr (Or.inl h'')
    · rcases mem_foldl_cleanStep r _ _ u hu with h3 | h3 | h3
      · simp at h3
      · refine Or.inl ?_
        have hx : x = List.intercalate ['/'] (x.splitOn '/') := by
          conv_lhs => rw [← List.intercalate_splitOn x '/']
        rw [hx]
        exact mem_intercalate_of_mem ['/'] _ u h3 c hcu
      · subst h3
        rcases List.mem_cons.mp hcu with h4 | h4
        · exact Or.inr (Or.inr h4)
        · rw [List.mem_singleton] at h4
          exact Or.inr (Or.inr h4)
  simp only [pathClean] at h
  split at h
  · rw [List.mem_singleton] at h
    exact Or.inr (Or.inr h)
  · split at h <;> split at h
    · rw [List.mem_singleton] at h
      exact Or.inr (Or.inr h)
    · rcases List.mem_append.mp h with h' | h'
      · rw [List.mem_singleton] at h'
        exact Or.inr (Or.inl h')
      · exact key _ h'
    · rw [List.mem_singleton] at h
      exact Or.inr (Or.inr h)
    · rw [List.nil_append] at h
      exact key _ h

/-- A whitespace character is fixed by ASCII lower-casing (no White_Space
code point is an ASCII capital letter). -/
theorem toLowerGo_of_space (c : Char) (h : isSpaceGo c = true) : toLowerGo c = c := by
  rw [toLowerGo, if_neg]
  intro hc
  simp only [isSpaceGo, Bool.or_eq_true, Bool.and_eq_true, decide_eq_true_eq] at h
  omega

/-- A character that lower-cases to `d` is not whitespace. -/
theorem not_space_of_lower_d (c : Char) (h : toLowerGo c = 'd') :
    isSpaceGo c = false := by
  by_contra hsp
  rw [Bool.not_eq_false] at hsp
  rw [toLowerGo_of_space c hsp] at h
  subst h
  exact absurd hsp (by decide)

/-- A path with the lowered `.md` suffix shape passes the
case-insensitive `.md` suffix test. -/
theorem hasSuf_of_lowMd (x : Str) (h : lowMd x) :
    hasSuf mdSuf (mapLower x) = true := by
  obtain ⟨y, a, b, c, hx, ha, hb, hc⟩ := h
  subst hx
  have : mapLower (y ++ [a, b, c]) = mapLower y ++ mdSuf := by
    rw [mapLower, List.map_append]
    simp [mapLower, ha, hb, hc, mdSuf]
  rw [this, hasSuf]
  exact List.isSuffixOf_iff_suffix.mpr (List.suffix_append _ _)

/-- A path passing the case-insensitive `.md` suffix test has the lowered
`.md` suffix shape. -/
theorem lowMd_of_hasSuf (x : Str) (h : hasSuf mdSuf (mapLower x) = true) :
    lowMd x := by
  rw [hasSuf] at h
  obtain ⟨z, hz⟩ := List.isSuffixOf_iff_suffix.mp h
  rcases hr : x.reverse with _ | ⟨c, tl⟩
  · rw [List.reverse_eq_nil_iff] at hr
    subst hr
    have hlen := congrArg List.length hz
    simp [mapLower, mdSuf] at hlen
  · rcases tl with _ | ⟨b, tl2⟩
    · have hx : x = [c] := by
        have := congrArg List.reverse hr
        simpa using this
      subst hx
      have hlen := congrArg List.length hz
      simp [mapLower, mdSuf] at hlen
    · rcases tl2 with _ | ⟨a, yr⟩
      · have hx : x = [b, c] := by
          have := congrArg List.reverse hr
          simpa using this
        subst hx
        have hlen := congrArg List.length hz
        simp [mapLower, mdSuf] at hlen
      · have hx : x = yr.reverse ++ [a, b, c] := by
          have := congrArg List.reverse hr
          simpa using this
        have hmap : mapLower x = mapLower yr.reverse ++
            [toLowerGo a, toLowerGo b, toLowerGo c] := by
          rw [hx, mapLower, List.map_append]
          rfl
        rw [hmap] at hz
        have hlen : (mdSuf : Str).length =
            ([toLowerGo a, toLowerGo b, toLowerGo c] : Str).length := by
          simp [mdSuf]
        obtain ⟨_, h2⟩ := List.append_inj' hz hlen
        rw [mdSuf] at h2
        injection h2 with ha h2
        injection h2 with hb h2
        injection h2 with hc _
        exact ⟨yr.reverse, a, b, c, hx, ha.symm, hb.symm, hc.symm⟩

/-- The lowered `.md` suffix shape survives slash normalization. -/
theorem lowMd_backToSlash (x : Str) (h : lowMd x) : lowMd (backToSlash x) := by
  obtain ⟨y, a, b, c, hx, ha, hb, hc⟩ := h
  have hane : a ≠ '\\' := by
    intro he
    rw [he] at ha
    exact absurd ha (by decide)
  have hbne : b ≠ '\\' := by
    intro he
    rw [he] at hb
    exact absurd hb (by decide)
  have hcne : c ≠ '\\' := by
    intro he
    rw [he] at hc
    exact absurd hc (by decide)
  refine ⟨backToSlash y, a, b, c, ?_, ha, hb, hc⟩
  rw [hx, backToSlash, backToSlash, List.map_append]
  simp [hane, hbne, hcne]

/-- The lowered `.md` suffix shape survives stripping a leading slash. -/
theorem lowMd_trimPre (x : Str) (h : lowMd x) : lowMd (trimPre ['/'] x) := by
  obtain ⟨y, a, b, c, hx, ha, hb, hc⟩ := h
  rw [trimPre]
  split
  · rename_i hp
    rw [List.isPrefixOf_iff_prefix] at hp
    obtain ⟨t, ht⟩ := hp
    cases y with
    | nil =>
      exfalso
      rw [hx] at ht
      simp at ht
      rw [← ht.1] at ha
      exact absurd ha (by decide)
    | cons y0 y' =>
      refine ⟨y', a, b, c, ?_, ha, hb, hc⟩
      rw [hx]
      simp
  · exact ⟨y, a, b, c, hx, ha, hb, hc⟩

/-- The lowered `.md` suffix shape survives stripping `./` prefixes
(length-indexed for the recursion). -/
theorem lowMd_dropDotSlash : ∀ (n : Nat) (x : Str), x.length ≤ n →
    lowMd x → lowMd (dropDotSlash x) := by
  intro n
  induction n with
  | zero =>
    intro x hl h
    obtain ⟨y, a, b, c, hx, _, _, _⟩ := h
    rw [hx] at hl
    simp at hl
  | succ m ih =>
    intro x hl h
    rw [dropDotSlash.eq_def]
    split
    · rename_i rest
      obtain ⟨y, a, b, c, hx, ha, hb, hc⟩ := h
      rcases y with _ | ⟨y0, y⟩
      · exfalso
        simp only [List.nil_append] at hx
        injection hx with h1 h2
        injection h2 with h2 _
        rw [← h2] at hb
        exact absurd hb (by decide)
      · rcases y with _ | ⟨y1, y'⟩
        · exfalso
          simp only [List.cons_append, List.nil_append] at hx
          injection hx with h1 h2
          injection h2 with h2 _
          rw [← h2] at ha
          exact absurd ha (by decide)
        · simp only [List.cons_append] at hx
          injection hx with h1 h2
          injection h2 with h2 h3
          have hlr : rest.length ≤ m := by
            simp at hl
            omega
          exact ih rest hlr ⟨y', a, b, c, h3, ha, hb, hc⟩
    · exact h

/-- A piece carrying the lowered `.md` suffix shape is a good piece. -/
theorem goodPiece_of_lowMd (u : Str) (h : lowMd u) : goodPiece u = true := by
  obtain ⟨y, a, b, c, hx, _, _, _⟩ := h
  subst hx
  simp only [goodPiece, decide_eq_true_eq]
  refine ⟨?_, ?_, ?_⟩ <;> intro he <;> (
    have hlen := congrArg List.length he
    rw [List.length_append] at hlen
    simp only [List.length_cons, List.length_nil] at hlen
    omega)

/-- An optional leading slash joined to pieces ending in a lowered-`.md`
piece keeps the lowered `.md` suffix shape (and is nonempty). -/
theorem lowMd_opt_intercalate (opt : Str) (W : List Str) (w : Str) (hw : lowMd w) :
    lowMd (opt ++ List.intercalate ['/'] (W ++ [w])) ∧
      opt ++ List.intercalate ['/'] (W ++ [w]) ≠ [] := by
  obtain ⟨v, a, b, c, hwv, ha, hb, hc⟩ := hw
  cases W with
  | nil =>
    rw [List.nil_append, intercalate_one]
    constructor
    · refine ⟨opt ++ v, a, b, c, ?_, ha, hb, hc⟩
      rw [hwv]
      simp
    · rw [hwv]
      simp
  | cons W0 W' =>
    rw [intercalate_concat _ _ _ (List.cons_ne_nil W0 W')]
    constructor
    · refine ⟨opt ++ (List.intercalate ['/'] (W0 :: W') ++ ['/'] ++ v), a, b, c, ?_,
        ha, hb, hc⟩
      rw [hwv]
      simp
    · rw [hwv]
      simp

/-- The lowered `.md` suffix shape survives `path.Clean`. -/
theorem lowMd_pathClean (x : Str) (h : lowMd x) : lowMd (pathClean x) := by
  obtain ⟨y, a, b, c, hx, ha, hb, hc⟩ := h
  subst hx
  have hane : a ≠ '/' := by
    intro he
    rw [he] at ha
    exact absurd ha (by decide)
  have hbne : b ≠ '/' := by
    intro he
    rw [he] at hb
    exact absurd hb (by decide)
  have hcne : c ≠ '/' := by
    intro he
    rw [he] at hc
    exact absurd hc (by decide)
  obtain ⟨L, u, hsp⟩ := splitOn_last y
  have h1 := splitOn_concat y a L u hane hsp
  have h2 := splitOn_concat (y ++ [a]) b L (u ++ [a]) hbne h1
  have h3 := splitOn_concat ((y ++ [a]) ++ [b]) c L ((u ++ [a]) ++ [b]) hcne h2
  have hre : y ++ [a, b, c] = ((y ++ [a]) ++ [b]) ++ [c] := by simp
  have hw : lowMd (((u ++ [a]) ++ [b]) ++ [c]) :=
    ⟨u, a, b, c, by simp, ha, hb, hc⟩
  have hsp3 : (y ++ [a, b, c]).splitOn '/' = L ++ [((u ++ [a]) ++ [b]) ++ [c]] := by
    rw [hre]
    exact h3
  have hgw := goodPiece_of_lowMd _ hw
  simp only [goodPiece, decide_eq_true_eq] at hgw
  have hxne : y ++ [a, b, c] ≠ ([] : Str) := by simp
  have hfold : ∀ (R : Bool),
      List.foldl (cleanStep R) [] (L ++ [((u ++ [a]) ++ [b]) ++ [c]]) =
        List.foldl (cleanStep R) [] L ++ [((u ++ [a]) ++ [b]) ++ [c]] := by
    intro R
    rw [List.foldl_append, List.foldl_cons, List.foldl_nil, cleanStep,
      if_neg (by tauto), if_neg (by tauto)]
  simp only [pathClean]
  rw [if_neg hxne]
  rw [hsp3, hfold]
  have key := lowMd_opt_intercalate
    (if (y ++ [a, b, c] : Str).head? = some '/' then (['/'] : Str) else [])
    (List.foldl (cleanStep (decide ((y ++ [a, b, c] : Str).head? = some '/'))) [] L)
    (((u ++ [a]) ++ [b]) ++ [c]) hw
  rw [if_neg key.2]
  exact key.1

/-- The home document path forced by `ensureHomeDoc` keeps the lowered
`.md` suffix shape. -/
theorem lowMd_ensureHomeDoc (homeDoc : Str) : lowMd (ensureHomeDoc homeDoc) := by
  have hgen : ∀ (z : Str), lowMd z → lowMd (if z = [] then homeMd else backToSlash z) := by
    intro z hz
    split
    · exact ⟨"Home".toList, '.', 'm', 'd', by decide, by decide, by decide, by decide⟩
    · exact lowMd_backToSlash z hz
  have hgen2 : ∀ (z : Str),
      lowMd (if hasSuf mdSuf (mapLower z) = true then z else z ++ mdSuf) := by
    intro z
    split
    · rename_i hsuf
      exact lowMd_of_hasSuf _ hsuf
    · exact ⟨z, '.', 'm', 'd', rfl, by decide, by decide, by decide⟩
  simp only [ensureHomeDoc]
  apply hgen
  apply lowMd_trimPre
  apply lowMd_dropDotSlash _ _ le_rfl
  apply lowMd_pathClean
  exact hgen2 _

/-- The home document path forced by `ensureHomeDoc` has no backslash. -/
theorem no_bs_ensureHomeDoc (homeDoc : Str) : '\\' ∉ ensureHomeDoc homeDoc := by
  have hgen : ∀ (z : Str), '\\' ∉ (if z = [] then homeMd else backToSlash z) := by
    intro z
    split
    · decide
    · exact backToSlash_no_bs z
  simp only [ensureHomeDoc]
  exact hgen _

/-- A path already in the normal form `normalizeRelPath` emits — lowered
`.md` suffix shape, no backslash, clean segments, no `..` escape — and
with no leading whitespace is a fixed point of `normalizeRelPath`. -/
theorem normalizeRelPath_fixed (q homeDoc : Str)
    (hmd : lowMd q) (hbs : '\\' ∉ q)
    (hsegs : checkSegs (q.splitOn '/') = none)
    (hesc : (hasPre ['.', '.'] q || hasSub q "/../".toList) = false)
    (hws : ∀ c, q.head? = some c → isSpaceGo c = false) :
    normalizeRelPath q homeDoc = .ok q := by
  have hqne : q ≠ [] := by
    obtain ⟨y, a, b, c, hx, _, _, _⟩ := hmd
    rw [hx]
    simp
  have hgood : ∀ s ∈ q.splitOn '/', goodPiece s = true :=
    fun s hs => (checkSegs_none _ hsegs s hs).1
  have hheadslash : ∀ c, q.head? = some c → c ≠ '/' := head_ne_slash q hqne hgood
  have hlastslash : ∀ c, q.getLast? = some c → c ≠ '/' := last_ne_slash q hqne hgood
  have hlastd : ∀ c, q.getLast? = some c → toLowerGo c = 'd' := by
    obtain ⟨y, a, b, c0, hx, ha, hb, hc0⟩ := hmd
    intro c hcq
    have hlq : q.getLast? = some c0 := by
      rw [hx, show y ++ [a, b, c0] = (y ++ [a, b]) ++ [c0] from by simp]
      exact List.getLast?_concat _
    rw [hlq] at hcq
    injection hcq with he
    rw [← he]
    exact hc0
  have htrim : trimSpaceGo q = q := by
    rw [trimSpaceGo]
    apply trimBothP_eq_self
    · exact hws
    · intro c hc
      exact not_space_of_lower_d c (hlastd c hc)
  have hbtsq : backToSlash q = q := backToSlash_eq_self q hbs
  have htb : trimBothP (fun c => c = '/') q = q := by
    apply trimBothP_eq_self
    · intro c hc
      exact decide_eq_false (hheadslash c hc)
    · intro c hc
      exact decide_eq_false (hlastslash c hc)
  have hnul : hasSub q ['\x00'] = false := by
    apply Bool.eq_false_iff.mpr
    intro hh
    have hmem := (hasSub_singleton '\x00' q).mp hh
    have hq0 : q = List.intercalate ['/'] (q.splitOn '/') := by
      conv_lhs => rw [← List.intercalate_splitOn q '/']
    rw [hq0] at hmem
    rcases mem_of_mem_intercalate _ _ _ hmem with h' | ⟨u, hu, hcu⟩
    · simp at h'
    · have hns := (checkSegs_none _ hsegs u hu).2.2
      rw [← hasSub_singleton '\x00' u] at hcu
      rw [hns] at hcu
      exact Bool.false_ne_true hcu
  have hsuf : hasSuf mdSuf (mapLower q) = true := hasSuf_of_lowMd q hmd
  have hroot : q.head? ≠ some '/' := by
    intro hh
    exact hheadslash '/' hh rfl
  have hpc : pathClean q = q := pathClean_of_good q hqne hroot hgood
  have hdds : dropDotSlash q = q := by
    apply dropDotSlash_eq_self
    intro r hqe
    obtain ⟨p0, rest', hsplit⟩ : ∃ p0 rest', q.splitOn '/' = p0 :: rest' := by
      cases hsp : q.splitOn '/' with
      | nil =>
        exfalso
        have : q.splitOn '/' ≠ [] := by
          rw [List.splitOn]
          exact List.splitOnP_ne_nil _ q
        exact this hsp
      | cons p0 rest' => exact ⟨p0, rest', rfl⟩
    have hp0good := hgood p0 (hsplit ▸ List.mem_cons_self _ _)
    have hp0ne : p0 ≠ [] := by
      simp only [goodPiece, decide_eq_true_eq] at hp0good
      tauto
    have hq0 : q = List.intercalate ['/'] (p0 :: rest') := by
      conv_lhs => rw [← List.intercalate_splitOn q '/']
      rw [hsplit]
    have hhead : q.head? = p0.head? := by
      rw [hq0]
      exact head?_intercalate _ _ _ hp0ne
    rw [hqe] at hhead
    rcases p0 with _ | ⟨d0, p0'⟩
    · exact hp0ne rfl
    · simp only [List.head?_cons] at hhead
      injection hhead with hd0
      rcases p0' with _ | ⟨d1, p0''⟩
      · rw [← hd0] at hp0good
        simp [goodPiece] at hp0good
      · have hslashp0 : '/' ∉ (d0 :: d1 :: p0'') :=
          splitOn_pieces '/' q (d0 :: d1 :: p0'') (hsplit ▸ List.mem_cons_self _ _)
        have hd1 : d1 = '/' := by
          rcases rest' with _ | ⟨b2, t2⟩
          · rw [intercalate_one] at hq0
            rw [hqe] at hq0
            injection hq0 with h1 h2
            injection h2 with h2 _
            exact h2.symm
          · rw [intercalate_two] at hq0
            rw [hqe] at hq0
            simp only [List.cons_append, List.append_assoc] at hq0
            injection hq0 with h1 h2
            injection h2 with h2 _
            exact h2.symm
        subst hd1
        exact hslashp0 (by simp)
  have htp : trimPre ['/'] q = q := trimPre_eq_self q hroot
  simp only [normalizeRelPath]
  rw [htrim, hbtsq, htb]
  rw [if_neg hqne]
  rw [if_neg (Bool.eq_false_iff.mp hnul)]
  rw [if_pos hsuf]
  rw [hpc, hdds, htp]
  rw [if_neg hqne]
  rw [if_neg (Bool.eq_false_iff.mp hesc)]
  rw [hsegs, hbtsq]

/-- Every successful `normalizeRelPath` output is in normal form: lowered
`.md` suffix shape, backslash-free, clean segments, and no `..` escape. -/
theorem normalizeRelPath_ok_shape (p homeDoc q : Str)
    (hok : normalizeRelPath p homeDoc = .ok q) :
    lowMd q ∧ '\\' ∉ q ∧ checkSegs (q.splitOn '/') = none ∧
      (hasPre ['.', '.'] q || hasSub q "/../".toList) = false := by
  simp only [normalizeRelPath] at hok
  set c0 : Str := trimBothP (fun c => c = '/') (backToSlash (trimSpaceGo p)) with hc0
  set c1 : Str := if c0 = [] then ensureHomeDoc homeDoc else c0 with hc1
  set c2 : Str := if hasSuf mdSuf (mapLower c1) = true then c1 else c1 ++ mdSuf with hc2
  set d0 : Str := trimPre ['/'] (dropDotSlash (pathClean c2)) with hd0
  set d1 : Str := if d0 = [] then ensureHomeDoc homeDoc else d0 with hd1
  split at hok
  · exact absurd hok (by simp)
  · rename_i hnul0
    split at hok
    · exact absurd hok (by simp)
    · rename_i hesc0
      split at hok
      · exact absurd hok (by simp)
      · rename_i hsegs0
        injection hok with hq'
        have hmd1 : lowMd d1 := by
          rw [hd1]
          split
          · exact lowMd_ensureHomeDoc homeDoc
          · rw [hd0]
            apply lowMd_trimPre
            apply lowMd_dropDotSlash _ _ le_rfl
            apply lowMd_pathClean
            rw [hc2]
            split
            · rename_i hsuf
              exact lowMd_of_hasSuf _ hsuf
            · exact ⟨c1, '.', 'm', 'd', rfl, by decide, by decide, by decide⟩
        have hbc1 : '\\' ∉ c1 := by
          rw [hc1]
          split
          · exact no_bs_ensureHomeDoc homeDoc
          · rw [hc0]
            intro hm
            exact backToSlash_no_bs _ (mem_trimBothP _ _ _ hm)
        have hbs1 : '\\' ∉ d1 := by
          rw [hd1]
          split
          · exact no_bs_ensureHomeDoc homeDoc
          · rw [hd0]
            intro hmem
            have h1 := mem_trimPre _ _ _ hmem
            have h2 := mem_dropDotSlash _ _ _ le_rfl h1
            rcases mem_pathClean _ _ h2 with h3 | h3 | h3
            · rw [hc2] at h3
              split at h3
              · exact hbc1 h3
              · rcases List.mem_append.mp h3 with h4 | h4
                · exact hbc1 h4
                · simp [mdSuf] at h4
            · exact absurd h3 (by decide)
            · exact absurd h3 (by decide)
        have hqd : q = d1 := by
          rw [← hq']
          exact backToSlash_eq_self _ hbs1
        refine ⟨?_, ?_, ?_, ?_⟩
        · rw [hqd]
          exact hmd1
        · rw [hqd]
          exact hbs1
        · rw [hqd]
          exact hsegs0
        · rw [hqd]
          exact Bool.eq_false_iff.mpr hesc0

/-- C6 (amended): `normalizeRelPath` is idempotent on every successful
result that does not begin with a whitespace character — if
`normalizeRelPath p home = ok q` and `q`'s first character is not
whitespace, then `normalizeRelPath q home = ok q`.  (The whitespace
proviso is necessary: an output may keep an interior-turned-leading
space, which the second pass trims, see
`normalize_idem_counterexample`.) -/
theorem normalize_idempotent (p homeDoc q : Str)
    (hok : normalizeRelPath p homeDoc = .ok q)
    (hws : (q.head?.all fun c => !isSpaceGo c) = true) :
    normalizeRelPath q homeDoc = .ok q := by
  obtain ⟨hmd, hbs, hsegs, hesc⟩ := normalizeRelPath_ok_shape p homeDoc q hok
  apply normalizeRelPath_fixed q homeDoc hmd hbs hsegs hesc
  intro c hc
  rw [hc] at hws
  simp only [Option.all_some, Bool.not_eq_true'] at hws
  exact hws

/-- C6 (counterexample): `normalizeRelPath` is not idempotent on all
successful inputs: `"/ a"` normalizes to `" a.md"` (the leading slash is
trimmed before the space becomes leading), but renormalizing `" a.md"`
trims the space and returns `"a.md"`. -/
theorem normalize_idem_counterexample :
    normalizeRelPath "/ a".toList homeMd = .ok " a.md".toList ∧
    normalizeRelPath " a.md".toList homeMd = .ok "a.md".toList ∧
    " a.md".toList ≠ "a.md".toList :=
  ⟨rfl, rfl, by decide⟩

/-- C6 witness: the amended idempotence theorem at the concrete input
`"a"`, which normalizes to `"a.md"`, a result starting with a non-space
character; renormalizing returns `"a.md"` itself. -/
theorem normalize_idempotent_witness :
    normalizeRelPath "a".toList homeMd = .ok "a.md".toList ∧
    (("a.md".toList : Str).head?.all fun c => !isSpaceGo c) = true ∧
    normalizeRelPath "a.md".toList homeMd = .ok "a.md".toList :=
  ⟨rfl, by decide, normalize_idempotent "a".toList homeMd "a.md".toList rfl (by decide)⟩
